import Mathlib

/-!
Verification of the Konieczny D-class engine, the orbit engine and the
element cache of this repository (konieczny.hpp, orb.h, cache.hpp).

The element kind, its Lambda/Rho maps and the orbit machinery
(bmat8.hpp, action.hpp, digraph.hpp) are not part of the source tree;
where they are needed they are modelled from the spec, as marked on the
corresponding definitions.  Everything else is translated directly from
the C++ sources.
-/

namespace libsemigroups

/-- Modelled from the spec: the sentinel `UNDEFINED` from the missing
constants.hpp, the maximum value of a 64-bit `size_t`. -/
def UNDEFINED : Nat := 2 ^ 64 - 1

/-! ## The BMat8 element kind

Modelled from the spec: bmat8.hpp is absent from the source tree.  A
`BMat8` is an 8x8 boolean matrix; its integer representation stores
entry (i, j) at bit 63 - (8 i + j), row 0 in the most significant
byte. -/

/-- Modelled from the spec: an 8x8 boolean matrix (bmat8.hpp is missing). -/
def BMat8 : Type := Fin 8 → Fin 8 → Bool

instance : DecidableEq BMat8 :=
  inferInstanceAs (DecidableEq (Fin 8 → Fin 8 → Bool))

/-- Modelled from the spec: boolean matrix product of the missing bmat8.hpp. -/
def BMat8.mul (x y : BMat8) : BMat8 :=
  fun i j => (List.finRange 8).any (fun k => x i k && y k j)

/-- Modelled from the spec: transpose of the missing bmat8.hpp. -/
def BMat8.transpose (x : BMat8) : BMat8 := fun i j => x j i

/-- Modelled from the spec: `bmat8_helpers::one<BMat8>(dim)`, the identity
matrix of the given working degree. -/
def BMat8.one (dim : Nat) : BMat8 :=
  fun i j => decide (i = j) && decide ((i : Nat) < dim)

/-- Modelled from the spec: the `BMat8(size_t)` constructor of the missing
bmat8.hpp, reading entry (i, j) from bit 63 - (8 i + j). -/
def BMat8.ofInt (n : Nat) : BMat8 :=
  fun i j => n.testBit (63 - (8 * (i : Nat) + (j : Nat)))

/-- Modelled from the spec: `BMat8::to_int`, the row-major 64-bit
representation (entry (i, j) at bit 63 - (8 i + j)). -/
def BMat8.toInt (x : BMat8) : Nat :=
  (List.finRange 8).foldl
    (fun acc i =>
      (List.finRange 8).foldl
        (fun acc2 j => acc2 + (if x i j then 2 ^ (63 - (8 * (i : Nat) + (j : Nat))) else 0))
        acc)
    0

/-! ## konieczny.hpp helpers over BMat8 -/

/-- Loop body of `bmat8_helpers::min_possible_dim`: starting from i = 1,
increment i while the low 8 i bits of both the matrix and its transpose
are zero and i < 9, then return 9 - i.  The fuel bounds the loop, which
performs at most 8 iterations. -/
def min_dim_go (d y : Nat) : Nat → Nat → Nat
  | 0, i => 9 - i
  | fuel + 1, i =>
    if (d >>> (8 * i)) <<< (8 * i) = d ∧ (y >>> (8 * i)) <<< (8 * i) = y ∧ i < 9
    then min_dim_go d y fuel (i + 1)
    else 9 - i

/-- `bmat8_helpers::min_possible_dim` (konieczny.hpp): the smallest
dimension in which the matrix and its transpose fit. -/
def min_possible_dim (x : BMat8) : Nat :=
  min_dim_go (BMat8.toInt x) (BMat8.toInt (BMat8.transpose x)) 9 1

/-- `Konieczny::compute_min_possible_dim`: `_dim` starts at 1 and is
raised to the largest `min_possible_dim` of a generator. -/
def compute_min_possible_dim (gens : List BMat8) : Nat :=
  gens.foldl
    (fun dim x => if min_possible_dim x > dim then min_possible_dim x else dim) 1

/-- `Konieczny::conditional_add_identity`: after computing the working
degree, set `_unit_in_gens` if some generator g satisfies
g * g^T = one(_dim), and append `one(_dim)` to the generators otherwise.
Returns the updated generator list and the `_unit_in_gens` flag. -/
def conditional_add_identity (gens : List BMat8) : List BMat8 × Bool :=
  let dim := compute_min_possible_dim gens
  if gens.any (fun x => decide (BMat8.mul x (BMat8.transpose x) = BMat8.one dim))
  then (gens, true)
  else (gens ++ [BMat8.one dim], false)

/-! ## The generic Konieczny engine

`Konieczny<TElementType, LambdaType, RhoType>` is a template; the
`konieczny_helpers::is_group_index` call forces all three types to be
equal, so the engine is modelled over one carrier `E` of elements, with
the trait operations and the fully-enumerated lambda and rho orbits as
parameters. -/

/-- Modelled from the spec: the trait surface (`Lambda`, `Rho`, `ToInt`,
the product) and the two enumerated orbits with their SCC data and
Schreier multipliers (element.hpp, action.hpp and digraph.hpp are
missing from the source tree).  Orbit indices are plain naturals;
`lamOrbPos` is `_lambda_orb.position`, `lamOrbAt` is `_lambda_orb.at`,
`lamSccId` is `digraph().scc_id`, `lamSccMembers` lists an SCC in
`cbegin_scc .. cend_scc` order, and the two multiplier fields are
`multiplier_to_scc_root` / `multiplier_from_scc_root`; likewise on the
rho side. -/
structure KInst (E : Type) where
  mul : E → E → E
  lam : E → E
  rho : E → E
  toInt : E → Nat
  lamOrbPos : E → Nat
  lamOrbAt : Nat → E
  lamSccId : Nat → Nat
  lamSccMembers : Nat → List Nat
  lamMultToRoot : Nat → E
  lamMultFromRoot : Nat → E
  rhoOrbPos : E → Nat
  rhoOrbAt : Nat → E
  rhoSccId : Nat → Nat
  rhoSccMembers : Nat → List Nat
  rhoMultToRoot : Nat → E
  rhoMultFromRoot : Nat → E

/-- `konieczny_helpers::is_group_index(x, y)`: tests
Lambda(y * x) == Lambda(x) and Rho(y * x) == Rho(y); `x` is a rho value
and `y` a lambda value. -/
def is_group_index {E : Type} [DecidableEq E] (I : KInst E) (x y : E) : Bool :=
  decide (I.lam (I.mul y x) = I.lam x) && decide (I.rho (I.mul y x) = I.rho y)

/-- The `_group_indices` / `_group_indices_alt` maps, keyed on pairs of
naturals; modelled as an association list. -/
abbrev GroupIndexMap : Type := List ((Nat × Nat) × Nat)

/-- Lookup in a `GroupIndexMap` (the `unordered_map::find` / `at` pair). -/
def mapFind : GroupIndexMap → Nat × Nat → Option Nat
  | [], _ => none
  | e :: rest, k => if e.1 = k then some e.2 else mapFind rest k

/-- The search loop of `Konieczny::find_group_index`: scan the members
of the given lambda-orbit SCC in order and return the first index j with
`is_group_index(rv, _lambda_orb.at(j))`, or `UNDEFINED`. -/
def search_group_index {E : Type} [DecidableEq E] (I : KInst E) (rv : E) (scc : Nat) : Nat :=
  match (I.lamSccMembers scc).find? (fun j => is_group_index I rv (I.lamOrbAt j)) with
  | some j => j
  | none => UNDEFINED

/-- `Konieczny::find_group_index(bm)`: memoised on the key
`(ToInt(Rho(bm)), scc_id(position(Lambda(bm))))`; on a miss, runs the
SCC scan and stores the result (possibly `UNDEFINED`).  Returns the
index and the updated `_group_indices` map. -/
def find_group_index {E : Type} [DecidableEq E] (I : KInst E) (m : GroupIndexMap)
    (bm : E) : Nat × GroupIndexMap :=
  let rv := I.rho bm
  let scc := I.lamSccId (I.lamOrbPos (I.lam bm))
  let key := (I.toInt rv, scc)
  match mapFind m key with
  | some v => (v, m)
  | none => (search_group_index I rv scc, (key, search_group_index I rv scc) :: m)

/-- `Konieczny::is_regular_element(bm)`: true iff `find_group_index`
does not return `UNDEFINED`. -/
def is_regular_element {E : Type} [DecidableEq E] (I : KInst E) (m : GroupIndexMap)
    (bm : E) : Bool × GroupIndexMap :=
  let r := find_group_index I m bm
  (decide (r.1 ≠ UNDEFINED), r.2)

/-- The while loop of `Konieczny::idem_in_H_class(bm)`: starting from
`tmp`, repeatedly replace tmp by tmp * bm until tmp * tmp == tmp.  The
C++ loop is unbounded; the model carries fuel and returns `none` when
the fuel runs out before an idempotent is reached. -/
def idem_loop {E : Type} [DecidableEq E] (I : KInst E) (bm : E) : Nat → E → Option E
  | 0, _ => none
  | fuel + 1, tmp =>
    if I.mul tmp tmp = tmp then some tmp else idem_loop I bm fuel (I.mul tmp bm)

/-- `Konieczny::idem_in_H_class(bm)` with fuel: the loop started at
tmp = bm, so it walks the successive powers bm, bm^2, bm^3, ... -/
def idem_in_H_cls {E : Type} [DecidableEq E] (I : KInst E) (fuel : Nat) (bm : E) : Option E :=
  idem_loop I bm fuel bm

/-- `Konieczny::find_idem(bm)` with the sentinel of the non-regular
branch as a parameter (the C++ template hard-codes
`BMat8(UNDEFINED)` there): if bm is idempotent return it; if bm is not
regular return the sentinel; otherwise set
x = bm * multiplier_to_scc_root(position(Lambda(bm))) *
multiplier_from_scc_root(find_group_index(bm)) and run
`idem_in_H_class(x)`.  The `_group_indices` map is threaded through the
two `find_group_index` calls. -/
def find_idem_with {E : Type} [DecidableEq E] (I : KInst E) (sentinel : E) (fuel : Nat)
    (m : GroupIndexMap) (bm : E) : Option E × GroupIndexMap :=
  if I.mul bm bm = bm then (some bm, m)
  else
    let reg := is_regular_element I m bm
    if reg.1 = false then (some sentinel, reg.2)
    else
      let gi := find_group_index I reg.2 bm
      let x := I.mul (I.mul bm (I.lamMultToRoot (I.lamOrbPos (I.lam bm)))) (I.lamMultFromRoot gi.1)
      (idem_in_H_cls I fuel x, gi.2)

/-- `Konieczny::find_idem` at the BMat8 element kind, with the sentinel
`BMat8(static_cast<size_t>(UNDEFINED))` of the source. -/
def find_idem (I : KInst BMat8) (fuel : Nat) (m : GroupIndexMap) (bm : BMat8) :
    Option BMat8 × GroupIndexMap :=
  find_idem_with I (BMat8.ofInt UNDEFINED) fuel m bm

/-- The spec's description of the idempotent-location loop: iterate
y ← y * x (multiplying by the original element x) until y * y = y,
with fuel; `none` when the fuel runs out first.  This is the claimed
behaviour, written for comparison with `idem_in_H_cls`, which multiplies
by the transformed start value instead. -/
def claimed_idem_iteration {E : Type} [DecidableEq E] (I : KInst E) (x : E) :
    Nat → E → Option E
  | 0, _ => none
  | fuel + 1, y =>
    if I.mul y y = y then some y else claimed_idem_iteration I x fuel (I.mul y x)

/-- Successive semigroup powers: `spow I y n` is y^(n+1). -/
def spow {E : Type} (I : KInst E) (y : E) : Nat → E
  | 0 => y
  | n + 1 => I.mul (spow I y n) y

/-! ## D classes and the Konieczny state -/

/-- The data of a `BaseDClass` visible to `size()`: the representative,
the `_H_class` vector (field renamed `H_cls` here), and the left and
right representative vectors. -/
structure DClassData (E : Type) where
  rep : E
  H_cls : List E
  left_reps : List E
  right_reps : List E
deriving DecidableEq

/-- `BaseDClass::size()`: |H| * |left reps| * |right reps|. -/
def DClassData.size {E : Type} (d : DClassData E) : Nat :=
  d.H_cls.length * d.left_reps.length * d.right_reps.length

/-- The fields of a `Konieczny` instance that `size()` and the D-class
registration functions read and write. -/
structure KonState (E : Type) where
  D_classes : List (DClassData E)
  regular_D_classes : List (DClassData E)
  D_rels : List (List Nat)
  unit_in_gens : Bool
  gens : List E
deriving DecidableEq

/-- `Konieczny::size()`: sum `(*it)->size()` over `_D_classes`, starting
from the second class when `_unit_in_gens` is false. -/
def KonState.size {E : Type} (s : KonState E) : Nat :=
  (if s.unit_in_gens then s.D_classes else s.D_classes.drop 1).foldl
    (fun acc d => acc + d.size) 0

/-- The sum over all D classes of |H| * |left reps| * |right reps|. -/
def sum_D_sizes {E : Type} (s : KonState E) : Nat :=
  (s.D_classes.map
    (fun d => d.H_cls.length * d.left_reps.length * d.right_reps.length)).sum

/-- `Konieczny::add_D_class(RegularDClass*)`: push onto
`_regular_D_classes` and `_D_classes` and extend `_D_rels`. -/
def add_regular_dcl {E : Type} (s : KonState E) (d : DClassData E) : KonState E :=
  { s with
    D_classes := s.D_classes ++ [d]
    regular_D_classes := s.regular_D_classes ++ [d]
    D_rels := s.D_rels ++ [[]] }

/-- `Konieczny::add_D_class(NonRegularDClass*)`: push onto `_D_classes`
only and extend `_D_rels`. -/
def add_non_regular_dcl {E : Type} (s : KonState E) (d : DClassData E) : KonState E :=
  { s with D_classes := s.D_classes ++ [d], D_rels := s.D_rels ++ [[]] }

/-- Constructing a `RegularDClass(parent, rep)` and registering it, as
done in `compute_D_classes`: the constructor throws when the
representative is not idempotent, in which case nothing is registered.
The boolean records whether the exception was raised. -/
def new_regular_dcl {E : Type} [DecidableEq E] (mul : E → E → E) (s : KonState E)
    (rep : E) : KonState E × Bool :=
  if mul rep rep = rep then (add_regular_dcl s ⟨rep, [], [], []⟩, false)
  else (s, true)

/-- Constructing a `NonRegularDClass(parent, rep)` and registering it:
the constructor throws when the representative is idempotent, in which
case nothing is registered. -/
def new_non_regular_dcl {E : Type} [DecidableEq E] (mul : E → E → E) (s : KonState E)
    (rep : E) : KonState E × Bool :=
  if mul rep rep = rep then (s, true)
  else (add_non_regular_dcl s ⟨rep, [], [], []⟩, false)

/-- `RegularDClass::nr_idempotents()`: count the pairs of a left index
and a right index whose orbit values pass
`is_group_index(_rho_orb.at(right), _lambda_orb.at(left))`. -/
def nr_idempotents {E : Type} [DecidableEq E] (I : KInst E) (leftIdx rightIdx : List Nat) :
    Nat :=
  leftIdx.foldl
    (fun c i =>
      rightIdx.foldl
        (fun c2 j => if is_group_index I (I.rhoOrbAt j) (I.lamOrbAt i) then c2 + 1 else c2)
        c)
    0

/-- Green's R relation on a carrier with the given product: a and b
generate the same right ideal (with the usual convention a = b or
a = b * u covering the absent identity). -/
def green_r {E : Type} (mul : E → E → E) (a b : E) : Prop :=
  (a = b ∨ ∃ u, a = mul b u) ∧ (b = a ∨ ∃ u, b = mul a u)

/-- Green's L relation on a carrier with the given product: a and b
generate the same left ideal. -/
def green_l {E : Type} (mul : E → E → E) (a b : E) : Prop :=
  (a = b ∨ ∃ u, a = mul u b) ∧ (b = a ∨ ∃ u, b = mul u a)

/-- Green's D relation: a D b when some c is L-related to a and
R-related to b. -/
def green_d {E : Type} (mul : E → E → E) (a b : E) : Prop :=
  ∃ c, green_l mul a c ∧ green_r mul c b

instance {E : Type} [DecidableEq E] [Fintype E] {mul : E → E → E} {a b : E} :
    Decidable (green_r mul a b) :=
  inferInstanceAs (Decidable ((a = b ∨ ∃ u, a = mul b u) ∧ (b = a ∨ ∃ u, b = mul a u)))

instance {E : Type} [DecidableEq E] [Fintype E] {mul : E → E → E} {a b : E} :
    Decidable (green_l mul a b) :=
  inferInstanceAs (Decidable ((a = b ∨ ∃ u, a = mul u b) ∧ (b = a ∨ ∃ u, b = mul u a)))

instance {E : Type} [DecidableEq E] [Fintype E] {mul : E → E → E} {a b : E} :
    Decidable (green_d mul a b) :=
  inferInstanceAs (Decidable (∃ c, green_l mul a c ∧ green_r mul c b))

/-- The count of index pairs stated by the spec for `nr_idempotents`:
pairs (i, j) with Lambda(rho_orbit[j] * lambda_orbit[i]) equal to
lambda_orbit[i].  Written for comparison with `nr_idempotents`. -/
def claim_pair_count {E : Type} [DecidableEq E] (I : KInst E) (leftIdx rightIdx : List Nat) :
    Nat :=
  (leftIdx.map
    (fun i => rightIdx.countP
      (fun j => decide (I.lam (I.mul (I.rhoOrbAt j) (I.lamOrbAt i)) = I.lamOrbAt i)))).sum

/-- The inner search of `RegularDClass::compute_left_indices` that
fills a missing `_group_indices_alt` entry for the key (rscc, it): the
first member it2 of the rho-orbit SCC with
`is_group_index(_rho_orb.at(it2), _lambda_orb.at(it))`, or `UNDEFINED`
when none passes. -/
def alt_search {E : Type} [DecidableEq E] (I : KInst E) (rscc it : Nat) : Nat :=
  match (I.rhoSccMembers rscc).find?
      (fun it2 => is_group_index I (I.rhoOrbAt it2) (I.lamOrbAt it)) with
  | some it2 => it2
  | none => UNDEFINED

/-- Correctness of a `_group_indices_alt` map: every stored entry
agrees with the inner search for its key (the invariant the memoisation
maintains; the key (rscc, it) determines the search directly). -/
def AltOk {E : Type} [DecidableEq E] (I : KInst E) (alt : GroupIndexMap) : Prop :=
  ∀ rscc it v, mapFind alt (rscc, it) = some v → v = alt_search I rscc it

/-- One iteration of the `compute_left_indices` loop at member `it`:
consult (and on a miss fill, with the inner search's result) the
`_group_indices_alt` map at key (rscc, it); append `it` to the index
list iff the entry is not `UNDEFINED`. -/
def cli_step {E : Type} [DecidableEq E] (I : KInst E) (rscc : Nat)
    (acc : List Nat × GroupIndexMap) (it : Nat) : List Nat × GroupIndexMap :=
  let key := (rscc, it)
  let alt2 :=
    match mapFind acc.2 key with
    | some _ => acc.2
    | none => (key, alt_search I rscc it) :: acc.2
  match mapFind alt2 key with
  | some v => if v ≠ UNDEFINED then (acc.1 ++ [it], alt2) else (acc.1, alt2)
  | none => (acc.1, alt2)

/-- `RegularDClass::compute_left_indices`: scan the lambda-orbit SCC of
Lambda(rep); for each member, consult (and on a miss fill) the
`_group_indices_alt` map, searching the rho-orbit SCC of Rho(rep) for a
group index; keep the member iff the map entry is not `UNDEFINED`.
Returns the `_left_indices` list and the updated alt map. -/
def compute_left_indices {E : Type} [DecidableEq E] (I : KInst E) (rep : E)
    (alt : GroupIndexMap) : List Nat × GroupIndexMap :=
  let lscc := I.lamSccId (I.lamOrbPos (I.lam rep))
  let rscc := I.rhoSccId (I.rhoOrbPos (I.rho rep))
  (I.lamSccMembers lscc).foldl (cli_step I rscc) ([], alt)

/-- One iteration of the `compute_right_indices` loop at member `it`:
form x = multiplier_from_scc_root(it) * multiplier_to_scc_root(rval_pos)
* rep and keep `it` iff `find_group_index(x)` is defined, threading the
`_group_indices` map. -/
def cri_step {E : Type} [DecidableEq E] (I : KInst E) (rval_pos : Nat) (rep : E)
    (acc : List Nat × GroupIndexMap) (it : Nat) : List Nat × GroupIndexMap :=
  let x := I.mul (I.mul (I.rhoMultFromRoot it) (I.rhoMultToRoot rval_pos)) rep
  let r := find_group_index I acc.2 x
  if r.1 ≠ UNDEFINED then (acc.1 ++ [it], r.2) else (acc.1, r.2)

/-- `RegularDClass::compute_right_indices`: scan the rho-orbit SCC of
Rho(rep); keep a member `it` iff
`find_group_index(multiplier_from_scc_root(it) *
multiplier_to_scc_root(rval_pos) * rep)` is defined.  Returns the
`_right_indices` list and the updated `_group_indices` map. -/
def compute_right_indices {E : Type} [DecidableEq E] (I : KInst E) (rep : E)
    (gi : GroupIndexMap) : List Nat × GroupIndexMap :=
  let rval_pos := I.rhoOrbPos (I.rho rep)
  (I.rhoSccMembers (I.rhoSccId rval_pos)).foldl (cri_step I rval_pos rep) ([], gi)

/-! ## The orbit engine (orb.h) -/

/-- The state of a plain `Orb`: the `_orb` point vector and the
`_enumerated` flag.  The `_map` field of the source always maps each
point of `_orb` to its index, so it is represented by the list itself. -/
structure OrbState (P : Type) where
  orb : List P
  enumerated : Bool
deriving DecidableEq

/-- `Orb::position(pt)`: the index of the point, or `UNDEFINED`. -/
def Orb.position {P : Type} [DecidableEq P] (s : OrbState P) (pt : P) : Nat :=
  if pt ∈ s.orb then s.orb.indexOf pt else UNDEFINED

/-- `Orb::add_seed(seed)`: if the point is new, record it at the next
index, clear `_enumerated`, and return that index; otherwise return
`UNDEFINED` without touching the state. -/
def Orb.add_seed {P : Type} [DecidableEq P] (s : OrbState P) (seed : P) :
    OrbState P × Nat :=
  if seed ∈ s.orb then (s, UNDEFINED)
  else ({ orb := s.orb ++ [seed], enumerated := false }, s.orb.length)

/-- The state of a `GradedOrb`: the point vector together with the
Schreier data `_gen` (source field name `_gen`; `none` models the null
generator pushed for seeds) and `_parent`, the current `_grade`, and the
`_low_grade_points` side set (kept without duplicates, as the source's
`unordered_set`). -/
structure GradedOrbState (P E : Type) where
  orb : List P
  gen_of : List (Option E)
  parent : List Nat
  grade : Nat
  low_grade_points : List P
deriving DecidableEq

/-- `GradedOrb::add_seed(seed)`: accepted when `_grade` is `UNDEFINED`
or the grade of the seed matches `_grade`; acceptance runs
`OrbWithTree::add_seed` (which pushes a null generator and an
`UNDEFINED` parent and adds the point unless already present) and then
sets `_grade` to the seed's grade.  A refused seed returns `UNDEFINED`
and leaves the state unchanged. -/
def GradedOrb.add_seed {P E : Type} [DecidableEq P] (grader : P → Nat)
    (s : GradedOrbState P E) (seed : P) : GradedOrbState P E × Nat :=
  if s.grade = UNDEFINED ∨ grader seed = s.grade then
    let base := if seed ∈ s.orb then (s.orb, UNDEFINED) else (s.orb ++ [seed], s.orb.length)
    ({ orb := base.1
       gen_of := s.gen_of ++ [none]
       parent := s.parent ++ [UNDEFINED]
       grade := grader seed
       low_grade_points := s.low_grade_points }, base.2)
  else (s, UNDEFINED)

/-- `GradedOrb::process_new_point(x, i)` applied to the newly reached
point `pt` (the source's `_tmp_point`): a point of the current grade is
appended to the orbit with its Schreier data; any other point is
inserted into `_low_grade_points` instead. -/
def GradedOrb.process_new_point {P E : Type} [DecidableEq P] (grader : P → Nat)
    (s : GradedOrbState P E) (x : E) (i : Nat) (pt : P) : GradedOrbState P E :=
  if grader pt = s.grade then
    { s with orb := s.orb ++ [pt], gen_of := s.gen_of ++ [some x], parent := s.parent ++ [i] }
  else
    { s with
      low_grade_points :=
        if pt ∈ s.low_grade_points then s.low_grade_points
        else s.low_grade_points ++ [pt] }

/-! ## The element cache (cache.hpp), pointer specialisation -/

/-- The state of `Cache<T, is_pointer_t<T>>`: the `_acquirable` stack
(head is the top) and the `_acquired` list.  The `_map` field of the
source always holds exactly the elements of `_acquired`, so it is
represented by that list. -/
structure CacheState (T : Type) where
  acquirable : List T
  acquired : List T
deriving DecidableEq

/-- `Cache::acquire()`: move the top of `_acquirable` to the back of
`_acquired` and return it; with an empty pool, throw (modelled as
`none`) before any mutation. -/
def Cache.acquire {T : Type} (s : CacheState T) : Option T × CacheState T :=
  match s.acquirable with
  | [] => (none, s)
  | p :: rest => (some p, { acquirable := rest, acquired := s.acquired ++ [p] })

/-- `Cache::release(ptr)`: if the pointer is not in `_map` (i.e. not
currently acquired), throw (modelled as the boolean `true`) before any
mutation; otherwise remove it from `_acquired` and push it back onto
`_acquirable`. -/
def Cache.release {T : Type} [DecidableEq T] (s : CacheState T) (p : T) :
    Bool × CacheState T :=
  if p ∈ s.acquired then
    (false, { acquirable := p :: s.acquirable, acquired := s.acquired.erase p })
  else (true, s)

/-! ## Concrete instances used in counterexamples and witnesses -/

/-- Carrier of a 1 x 2 Rees matrix semigroup over the cyclic group Z4
with an adjoined identity: `u` is the identity, `a g c` the Rees element
with group entry g and column c (the single row is 0). -/
inductive ReesElt : Type
  | u : ReesElt
  | a : Fin 4 → Fin 2 → ReesElt
deriving DecidableEq

/-- The sandwich-matrix entry p(c, 0) of the Rees instance: p(0,0) = 0,
p(1,0) = 1. -/
def reesP (c : Fin 2) : Fin 4 := if c = 0 then 0 else 1

/-- Product of the Rees instance:
(0,g,c) * (0,h,d) = (0, g + p(c,0) + h, d), with `u` the identity.  This
is the standard Rees matrix product, hence associative. -/
def ReesElt.mul : ReesElt → ReesElt → ReesElt
  | ReesElt.u, y => y
  | x, ReesElt.u => x
  | ReesElt.a g c, ReesElt.a h d => ReesElt.a (g + reesP c + h) d

/-- The Rees instance of the generic engine.  Lambda is the canonical
column representative (L classes of the Rees semigroup are the columns),
Rho the canonical row representative; the lambda orbit holds the points
u, (0,0,col 0), (0,0,col 1) at indices 0, 1, 2, the two column points
forming one SCC with root index 1, and the multipliers satisfy the
orbit laws: acting on point 2 by `a 1 0` reaches the root and acting on
the root by `a 0 1` reaches point 2.  The rho side is not consulted by
the functions under test and holds degenerate data. -/
def reesInst : KInst ReesElt where
  mul := ReesElt.mul
  lam := fun x => match x with
    | ReesElt.u => ReesElt.u
    | ReesElt.a _ c => ReesElt.a 0 c
  rho := fun x => match x with
    | ReesElt.u => ReesElt.u
    | ReesElt.a _ _ => ReesElt.a 0 0
  toInt := fun x => match x with
    | ReesElt.u => 0
    | ReesElt.a g c => 1 + 2 * (g : Nat) + (c : Nat)
  lamOrbPos := fun p =>
    if p = ReesElt.u then 0
    else if p = ReesElt.a 0 0 then 1
    else if p = ReesElt.a 0 1 then 2
    else UNDEFINED
  lamOrbAt := fun n =>
    if n = 0 then ReesElt.u
    else if n = 1 then ReesElt.a 0 0
    else ReesElt.a 0 1
  lamSccId := fun n => if n = 0 then 1 else 0
  lamSccMembers := fun s => if s = 0 then [1, 2] else if s = 1 then [0] else []
  lamMultToRoot := fun n => if n = 2 then ReesElt.a 1 0 else ReesElt.u
  lamMultFromRoot := fun n => if n = 2 then ReesElt.a 0 1 else ReesElt.u
  rhoOrbPos := fun _ => UNDEFINED
  rhoOrbAt := fun _ => ReesElt.u
  rhoSccId := fun _ => UNDEFINED
  rhoSccMembers := fun _ => []
  rhoMultToRoot := fun _ => ReesElt.u
  rhoMultFromRoot := fun _ => ReesElt.u

/-- Carrier of the Brandt semigroup B2 (2 x 2 Rees matrix semigroup
over the trivial group with the identity sandwich matrix) with zero `z`
and adjoined identity `u`; `e i j` is the elementary element with row i
and column j. -/
inductive BrElt : Type
  | u : BrElt
  | z : BrElt
  | e : Fin 2 → Fin 2 → BrElt
deriving DecidableEq, Fintype

/-- Product of the Brandt instance: e i j * e k l = e i l when j = k and
z otherwise; z is absorbing and u the identity.  Standard Brandt
semigroup product, hence associative. -/
def BrElt.mul : BrElt → BrElt → BrElt
  | BrElt.u, y => y
  | x, BrElt.u => x
  | BrElt.z, _ => BrElt.z
  | _, BrElt.z => BrElt.z
  | BrElt.e i j, BrElt.e k l => if j = k then BrElt.e i l else BrElt.z

/-- The Brandt instance of the generic engine.  Lambda is the canonical
column representative e 0 j, Rho the canonical row representative
e i 0.  The lambda orbit holds u, e 0 0, e 0 1, z at indices 0..3 with
the two column points one SCC (id 1, root index 1); the rho orbit holds
u, e 0 0, e 1 0, z likewise.  The multipliers satisfy the orbit laws of
the spec, e.g. Rho(e 1 0 * y) = e 1 0 for Rho(y) = e 0 0. -/
def brandtInst : KInst BrElt where
  mul := BrElt.mul
  lam := fun x => match x with
    | BrElt.u => BrElt.u
    | BrElt.z => BrElt.z
    | BrElt.e _ j => BrElt.e 0 j
  rho := fun x => match x with
    | BrElt.u => BrElt.u
    | BrElt.z => BrElt.z
    | BrElt.e i _ => BrElt.e i 0
  toInt := fun x => match x with
    | BrElt.u => 0
    | BrElt.z => 1
    | BrElt.e i j => 2 + 2 * (i : Nat) + (j : Nat)
  lamOrbPos := fun p =>
    if p = BrElt.u then 0
    else if p = BrElt.e 0 0 then 1
    else if p = BrElt.e 0 1 then 2
    else if p = BrElt.z then 3
    else UNDEFINED
  lamOrbAt := fun n =>
    if n = 0 then BrElt.u
    else if n = 1 then BrElt.e 0 0
    else if n = 2 then BrElt.e 0 1
    else BrElt.z
  lamSccId := fun n => if n = 0 then 2 else if n = 3 then 0 else 1
  lamSccMembers := fun s =>
    if s = 0 then [3] else if s = 1 then [1, 2] else if s = 2 then [0] else []
  lamMultToRoot := fun n => if n = 2 then BrElt.e 1 0 else BrElt.u
  lamMultFromRoot := fun n => if n = 2 then BrElt.e 0 1 else BrElt.u
  rhoOrbPos := fun p =>
    if p = BrElt.u then 0
    else if p = BrElt.e 0 0 then 1
    else if p = BrElt.e 1 0 then 2
    else if p = BrElt.z then 3
    else UNDEFINED
  rhoOrbAt := fun n =>
    if n = 0 then BrElt.u
    else if n = 1 then BrElt.e 0 0
    else if n = 2 then BrElt.e 1 0
    else BrElt.z
  rhoSccId := fun n => if n = 0 then 2 else if n = 3 then 0 else 1
  rhoSccMembers := fun s =>
    if s = 0 then [3] else if s = 1 then [1, 2] else if s = 2 then [0] else []
  rhoMultToRoot := fun n => if n = 2 then BrElt.e 0 1 else BrElt.u
  rhoMultFromRoot := fun n => if n = 2 then BrElt.e 1 0 else BrElt.u

/-- A two-element group instance (Z2 under addition) with the one-point
lambda orbit of a group: every element has constant Lambda and Rho, the
orbit is the single point 0 in its own SCC, and all multipliers are the
identity 0.  Used to discharge hypotheses of the generic theorems at a
concrete input. -/
def fin2Inst : KInst (Fin 2) where
  mul := fun x y => x + y
  lam := fun _ => 0
  rho := fun _ => 0
  toInt := fun x => (x : Nat)
  lamOrbPos := fun _ => 0
  lamOrbAt := fun _ => 0
  lamSccId := fun _ => 0
  lamSccMembers := fun s => if s = 0 then [0] else []
  lamMultToRoot := fun _ => 0
  lamMultFromRoot := fun _ => 0
  rhoOrbPos := fun _ => 0
  rhoOrbAt := fun _ => 0
  rhoSccId := fun _ => 0
  rhoSccMembers := fun s => if s = 0 then [0] else []
  rhoMultToRoot := fun _ => 0
  rhoMultFromRoot := fun _ => 0

/-- The 2 x 2 elementary boolean matrix with single entry (0, 1): a
nilpotent element (its square is the zero matrix), hence neither
idempotent nor regular in the monoid it generates with the identity. -/
def bmatNil : BMat8 := BMat8.ofInt (2 ^ 62)

/-- A BMat8 instance around `bmatNil` for the sentinel theorem's
witness: Lambda and Rho are the identity maps and the lambda-orbit SCC
of the position assigned to Lambda(bmatNil) has no members, so the group
index search fails and the element is classified non-regular. -/
def nilInst : KInst BMat8 where
  mul := BMat8.mul
  lam := fun x => x
  rho := fun x => x
  toInt := BMat8.toInt
  lamOrbPos := fun _ => 0
  lamOrbAt := fun _ => BMat8.ofInt 0
  lamSccId := fun _ => 0
  lamSccMembers := fun _ => []
  lamMultToRoot := fun _ => BMat8.ofInt 0
  lamMultFromRoot := fun _ => BMat8.ofInt 0
  rhoOrbPos := fun _ => 0
  rhoOrbAt := fun _ => BMat8.ofInt 0
  rhoSccId := fun _ => 0
  rhoSccMembers := fun _ => []
  rhoMultToRoot := fun _ => BMat8.ofInt 0
  rhoMultFromRoot := fun _ => BMat8.ofInt 0

/-- The 2 x 2 swap permutation matrix, entries (0, 1) and (1, 0). -/
def swap2 : BMat8 := BMat8.ofInt (2 ^ 62 + 2 ^ 55)

/-- The final state of the engine on the generator set {swap2}: the
working degree is 2, `swap2 * swap2^T = one(2)` so `_unit_in_gens` is
true and nothing is appended; the enumeration builds the single D class
of the group {one(2), swap2} (its H class is the whole group, with one
left and one right representative), and `size()` correctly returns 2. -/
def swapState : KonState BMat8 where
  D_classes := [⟨BMat8.one 2, [BMat8.one 2, swap2], [BMat8.one 2], [BMat8.one 2]⟩]
  regular_D_classes := [⟨BMat8.one 2, [BMat8.one 2, swap2], [BMat8.one 2], [BMat8.one 2]⟩]
  D_rels := [[]]
  unit_in_gens := true
  gens := [swap2]

/-- A Konieczny state with an adjoined identity: the head D class is
the singleton of the adjoined identity and a second class has three
elements.  Used as witness data for the size formula. -/
def adjoinedState : KonState Nat where
  D_classes := [⟨0, [0], [0], [0]⟩, ⟨1, [1, 2, 3], [1], [1]⟩]
  regular_D_classes := [⟨0, [0], [0], [0]⟩]
  D_rels := [[], []]
  unit_in_gens := false
  gens := [1]

/-- A graded-orbit state with one stored point of grade 1: witness data
for the grading invariant. -/
def gradedW : GradedOrbState (Fin 3) Unit where
  orb := [1]
  gen_of := [none]
  parent := [UNDEFINED]
  grade := 1
  low_grade_points := []

/-- A cache state with one acquirable and one acquired element:
witness data for the cache theorem. -/
def cacheW : CacheState Nat where
  acquirable := [1]
  acquired := [2]

/-- An empty Konieczny state over Z2: witness data for the D-class
constructor theorem. -/
def konW : KonState (Fin 2) where
  D_classes := []
  regular_D_classes := []
  D_rels := []
  unit_in_gens := false
  gens := []

/-- Correctness of a `_group_indices` map: every stored entry agrees
with what the SCC scan of `find_group_index` computes for its key.
This is the invariant the memoisation maintains. -/
def MapOk {E : Type} [DecidableEq E] (I : KInst E) (m : GroupIndexMap) : Prop :=
  ∀ rv s j, mapFind m (I.toInt rv, s) = some j → j = search_group_index I rv s

/-! # Theorems -/

/-- Folding `+ size` over a list of D classes adds the list's total
size to the accumulator. -/
theorem foldl_add_sizes {E : Type} (l : List (DClassData E)) (a : Nat) :
    l.foldl (fun acc d => acc + d.size) a
      = a + (l.map
          (fun d => d.H_cls.length * d.left_reps.length * d.right_reps.length)).sum := by
  induction l generalizing a with
  | nil => simp
  | cons d t ih =>
      rw [List.foldl_cons, ih]
      simp only [List.map_cons, List.sum_cons, DClassData.size]
      omega

/-- C1 counterexample: on the generator set {swap2} (the 2 x 2 swap
permutation, working degree 2) no generator is the identity of degree 2,
yet `_unit_in_gens` is true, no subtraction happens, and `size()`
correctly returns 2, not the claimed sum minus 1. -/
theorem C1_counterexample :
    KonState.size swapState = 2
    ∧ sum_D_sizes swapState = 2
    ∧ BMat8.one (compute_min_possible_dim swapState.gens) ∉ swapState.gens
    ∧ KonState.size swapState ≠ sum_D_sizes swapState - 1 := by
  exact ⟨by decide, by decide, by decide, by decide⟩

/-- C1 (amended): `size()` equals the sum over all D classes of
|H| * |left reps| * |right reps| minus the size of the first D class
exactly when `_unit_in_gens` is false (the identity was adjoined); when
that first class is the singleton of the adjoined identity the
subtraction is exactly 1. -/
theorem C1_amended_size {E : Type} (s : KonState E) (h : s.D_classes ≠ []) :
    (s.unit_in_gens = true → KonState.size s = sum_D_sizes s)
    ∧ (s.unit_in_gens = false →
        KonState.size s + (s.D_classes.head h).size = sum_D_sizes s)
    ∧ (s.unit_in_gens = false → (s.D_classes.head h).size = 1 →
        KonState.size s = sum_D_sizes s - 1) := by
  obtain ⟨cls, rcls, rels, unit, gens⟩ := s
  cases cls with
  | nil => exact absurd rfl h
  | cons d t =>
      have h2 : unit = false →
          KonState.size ⟨d :: t, rcls, rels, unit, gens⟩ + DClassData.size d
            = sum_D_sizes ⟨d :: t, rcls, rels, unit, gens⟩ := by
        intro hu
        simp only [KonState.size, sum_D_sizes]
        rw [if_neg (by simp [hu])]
        simp only [List.drop_succ_cons, List.drop_zero, List.map_cons, List.sum_cons]
        rw [foldl_add_sizes]
        simp only [DClassData.size]
        omega
      refine ⟨fun hu => ?_, fun hu => ?_, fun hu h1 => ?_⟩
      · simp only [KonState.size, sum_D_sizes]
        rw [if_pos hu]
        rw [foldl_add_sizes]
        omega
      · simpa only [List.head_cons] using h2 hu
      · have h3 := h2 hu
        have h1a : DClassData.size d = 1 := by simpa only [List.head_cons] using h1
        omega

/-- C1 witness: on a state with an adjoined identity whose head D class
is a singleton, `size()` is the total sum minus 1. -/
theorem C1_amended_size_witness :
    adjoinedState.D_classes ≠ []
    ∧ KonState.size adjoinedState = sum_D_sizes adjoinedState - 1 :=
  ⟨by decide, (C1_amended_size adjoinedState (by decide)).2.2 (by decide) (by decide)⟩

/-- Unfolding of `is_group_index` into its two trait equations. -/
theorem is_group_index_true_iff {E : Type} [DecidableEq E] (I : KInst E) (x y : E) :
    is_group_index I x y = true ↔
      I.lam (I.mul y x) = I.lam x ∧ I.rho (I.mul y x) = I.rho y := by
  simp [is_group_index]

/-- Behaviour of the SCC scan of `find_group_index`: a non-`UNDEFINED`
result is a member of the SCC passing the `is_group_index` test, an
`UNDEFINED` result means no member passes, and (when `UNDEFINED` is not
itself an orbit index) the scan succeeds iff some member passes. -/
theorem search_group_index_spec {E : Type} [DecidableEq E] (I : KInst E) (rv : E)
    (scc : Nat) (hnm : ∀ j ∈ I.lamSccMembers scc, j ≠ UNDEFINED) :
    (search_group_index I rv scc ≠ UNDEFINED →
      search_group_index I rv scc ∈ I.lamSccMembers scc
      ∧ is_group_index I rv (I.lamOrbAt (search_group_index I rv scc)) = true)
    ∧ (search_group_index I rv scc = UNDEFINED →
      ∀ j ∈ I.lamSccMembers scc, is_group_index I rv (I.lamOrbAt j) = false)
    ∧ (search_group_index I rv scc ≠ UNDEFINED ↔
      ∃ j ∈ I.lamSccMembers scc, is_group_index I rv (I.lamOrbAt j) = true) := by
  unfold search_group_index
  cases hf : (I.lamSccMembers scc).find? (fun j => is_group_index I rv (I.lamOrbAt j)) with
  | none =>
      have hall := List.find?_eq_none.mp hf
      refine ⟨fun hc => absurd rfl hc, fun _ j hj => ?_, ?_⟩
      · have := hall j hj
        simp only [Bool.not_eq_true] at this
        exact this
      · constructor
        · intro hc; exact absurd rfl hc
        · rintro ⟨j, hj, hP⟩
          exact absurd hP (hall j hj)
  | some j =>
      have hmem := List.mem_of_find?_eq_some hf
      have hp := List.find?_some hf
      refine ⟨fun _ => ⟨hmem, hp⟩, fun hc => absurd hc (hnm j hmem), ?_⟩
      constructor
      · intro _; exact ⟨j, hmem, hp⟩
      · intro _; exact hnm j hmem

/-- With a correct memo map, `find_group_index` returns exactly what
the SCC scan returns for the element's key. -/
theorem find_group_index_fst {E : Type} [DecidableEq E] (I : KInst E)
    (m : GroupIndexMap) (bm : E) (hmap : MapOk I m) :
    (find_group_index I m bm).1
      = search_group_index I (I.rho bm) (I.lamSccId (I.lamOrbPos (I.lam bm))) := by
  unfold find_group_index
  simp only []
  cases hfind : mapFind m
      (I.toInt (I.rho bm), I.lamSccId (I.lamOrbPos (I.lam bm))) with
  | none => simp [hfind]
  | some v =>
      simp only [hfind]
      exact hmap (I.rho bm) _ v hfind

/-- `find_group_index` preserves the memo-map invariant (injectivity of
`to_int` on rho values ensures the key determines the rho value). -/
theorem find_group_index_mapok {E : Type} [DecidableEq E] (I : KInst E)
    (m : GroupIndexMap) (bm : E) (hmap : MapOk I m)
    (hinj : Function.Injective I.toInt) :
    MapOk I (find_group_index I m bm).2 := by
  unfold find_group_index
  simp only []
  cases hfind : mapFind m
      (I.toInt (I.rho bm), I.lamSccId (I.lamOrbPos (I.lam bm))) with
  | some v => simpa [hfind] using hmap
  | none =>
      simp only [hfind]
      intro rv s j hj
      simp only [mapFind] at hj
      by_cases hk :
          ((I.toInt (I.rho bm), I.lamSccId (I.lamOrbPos (I.lam bm))) : Nat × Nat)
            = (I.toInt rv, s)
      · rw [if_pos hk] at hj
        have h1 : I.toInt (I.rho bm) = I.toInt rv := congrArg Prod.fst hk
        have h2 : I.lamSccId (I.lamOrbPos (I.lam bm)) = s := congrArg Prod.snd hk
        have h3 : I.rho bm = rv := hinj h1
        cases hj
        rw [← h3, ← h2]
      · rw [if_neg hk] at hj
        exact hmap rv s j hj

/-- C2 counterexample: in the Rees-matrix instance, at the element
(0, 1, col 1) the code returns group index 1 (so the element is
classified regular), yet no index of the SCC satisfies the claimed
equations lambda(lambda_orbit[j] * rho(x)) = lambda(x) and
rho(lambda_orbit[j] * rho(x)) = rho(x); the claim demands `UNDEFINED`
here. -/
theorem C2_counterexample :
    (find_group_index reesInst [] (ReesElt.a 1 1)).1 = 1
    ∧ (1 : Nat) ≠ UNDEFINED
    ∧ ∀ j ∈ reesInst.lamSccMembers
        (reesInst.lamSccId (reesInst.lamOrbPos (reesInst.lam (ReesElt.a 1 1)))),
        ¬ (reesInst.lam (reesInst.mul (reesInst.lamOrbAt j) (reesInst.rho (ReesElt.a 1 1)))
             = reesInst.lam (ReesElt.a 1 1)
           ∧ reesInst.rho (reesInst.mul (reesInst.lamOrbAt j) (reesInst.rho (ReesElt.a 1 1)))
             = reesInst.rho (ReesElt.a 1 1)) := by
  exact ⟨by decide, by decide, by decide⟩

/-- C2 (amended): with a correct memo map, `find_group_index(x)`
returns an index j of the lambda-orbit SCC of lambda(x) satisfying
lambda(lambda_orbit[j] * rho(x)) = lambda(rho(x)) and
rho(lambda_orbit[j] * rho(x)) = rho(lambda_orbit[j]) whenever one
exists, and `UNDEFINED` otherwise; x is classified regular precisely
when such an index exists; and the memo map stays correct. -/
theorem C2_amended_group_index {E : Type} [DecidableEq E] (I : KInst E)
    (m : GroupIndexMap) (x : E) (hmap : MapOk I m)
    (hinj : Function.Injective I.toInt)
    (hnm : ∀ j ∈ I.lamSccMembers (I.lamSccId (I.lamOrbPos (I.lam x))), j ≠ UNDEFINED) :
    ((find_group_index I m x).1 ≠ UNDEFINED →
       (find_group_index I m x).1 ∈ I.lamSccMembers (I.lamSccId (I.lamOrbPos (I.lam x)))
       ∧ I.lam (I.mul (I.lamOrbAt (find_group_index I m x).1) (I.rho x)) = I.lam (I.rho x)
       ∧ I.rho (I.mul (I.lamOrbAt (find_group_index I m x).1) (I.rho x))
           = I.rho (I.lamOrbAt (find_group_index I m x).1))
    ∧ ((find_group_index I m x).1 = UNDEFINED →
       ∀ j ∈ I.lamSccMembers (I.lamSccId (I.lamOrbPos (I.lam x))),
         ¬ (I.lam (I.mul (I.lamOrbAt j) (I.rho x)) = I.lam (I.rho x)
            ∧ I.rho (I.mul (I.lamOrbAt j) (I.rho x)) = I.rho (I.lamOrbAt j)))
    ∧ ((is_regular_element I m x).1 = true ↔
       ∃ j ∈ I.lamSccMembers (I.lamSccId (I.lamOrbPos (I.lam x))),
         I.lam (I.mul (I.lamOrbAt j) (I.rho x)) = I.lam (I.rho x)
         ∧ I.rho (I.mul (I.lamOrbAt j) (I.rho x)) = I.rho (I.lamOrbAt j))
    ∧ MapOk I (find_group_index I m x).2 := by
  have hres := find_group_index_fst I m x hmap
  have hspec := search_group_index_spec I (I.rho x)
    (I.lamSccId (I.lamOrbPos (I.lam x))) hnm
  refine ⟨fun hne => ?_, fun heq => ?_, ?_, find_group_index_mapok I m x hmap hinj⟩
  · rw [hres] at hne ⊢
    obtain ⟨hm, hP⟩ := hspec.1 hne
    exact ⟨hm, (is_group_index_true_iff I _ _).mp hP⟩
  · rw [hres] at heq
    intro j hj hP
    have hP2 := (is_group_index_true_iff I (I.rho x) (I.lamOrbAt j)).mpr hP
    rw [hspec.2.1 heq j hj] at hP2
    exact Bool.noConfusion hP2
  · have : (is_regular_element I m x).1 = true ↔ (find_group_index I m x).1 ≠ UNDEFINED := by
      simp [is_regular_element]
    rw [this, hres, hspec.2.2]
    constructor
    · rintro ⟨j, hj, hP⟩
      exact ⟨j, hj, (is_group_index_true_iff I _ _).mp hP⟩
    · rintro ⟨j, hj, hP⟩
      exact ⟨j, hj, (is_group_index_true_iff I _ _).mpr hP⟩

/-- C2 witness: in the two-element group instance the element 1 is
classified regular, matching the existence of a passing index. -/
theorem C2_amended_group_index_witness :
    (is_regular_element fin2Inst [] 1).1 = true :=
  (C2_amended_group_index fin2Inst [] 1
      (fun rv s j hj => by simp [mapFind] at hj)
      Fin.val_injective
      (by decide)).2.2.1.mpr ⟨0, by decide, by decide, by decide⟩

/-- Power law: y^(a+1) * y^(b+1) = y^(a+b+2), given associativity. -/
theorem spow_add {E : Type} (I : KInst E) (y : E)
    (hassoc : ∀ a b c, I.mul (I.mul a b) c = I.mul a (I.mul b c)) :
    ∀ a b, spow I y (a + b + 1) = I.mul (spow I y a) (spow I y b) := by
  intro a b
  induction b with
  | zero => rfl
  | succ b ih =>
      have h1 : a + (b + 1) + 1 = (a + b + 1) + 1 := by omega
      rw [h1]
      show I.mul (spow I y (a + b + 1)) y = I.mul (spow I y a) (spow I y (b + 1))
      rw [ih]
      exact hassoc _ _ _

/-- A coincidence of powers propagates forward. -/
theorem spow_shift {E : Type} (I : KInst E) (y : E) (a p : Nat)
    (h : spow I y a = spow I y (a + p)) :
    ∀ k, spow I y (a + k) = spow I y (a + k + p) := by
  intro k
  induction k with
  | zero => simpa using h
  | succ k ih =>
      have h1 : a + (k + 1) = (a + k) + 1 := by omega
      rw [h1]
      have h2 : a + k + 1 + p = (a + k + p) + 1 := by omega
      rw [h2]
      show I.mul (spow I y (a + k)) y = I.mul (spow I y (a + k + p)) y
      rw [ih]

/-- A coincidence of powers propagates forward by any multiple of the
period. -/
theorem spow_shift_mult {E : Type} (I : KInst E) (y : E) (a p : Nat)
    (h : spow I y a = spow I y (a + p)) :
    ∀ t k, spow I y (a + k) = spow I y (a + k + t * p) := by
  intro t
  induction t with
  | zero => intro k; simp
  | succ t ih =>
      intro k
      have h1 : a + k + (t + 1) * p = (a + (k + t * p)) + p := by
        rw [Nat.succ_mul]; omega
      rw [h1, ← spow_shift I y a p h (k + t * p)]
      have h3 : a + (k + t * p) = a + k + t * p := by omega
      rw [h3]
      exact ih k

/-- From a strict coincidence of two powers, some power of the element
is idempotent. -/
theorem exists_idem_spow_of_repeat {E : Type} (I : KInst E)
    (hassoc : ∀ a b c, I.mul (I.mul a b) c = I.mul a (I.mul b c)) (y : E)
    (a b : Nat) (hlt : a < b) (heq : spow I y a = spow I y b) :
    ∃ n, I.mul (spow I y n) (spow I y n) = spow I y n := by
  have hp1 : 1 ≤ b - a := by omega
  have hb : b = a + (b - a) := by omega
  rw [hb] at heq
  have hpos : 1 ≤ (a + 1) * (b - a) := Nat.mul_pos (Nat.succ_pos a) hp1
  have hle : (a + 1) * 1 ≤ (a + 1) * (b - a) := Nat.mul_le_mul_left (a + 1) hp1
  rw [Nat.mul_one] at hle
  refine ⟨(a + 1) * (b - a) - 1, ?_⟩
  rw [← spow_add I y hassoc]
  have h2 : (a + 1) * (b - a) - 1 + ((a + 1) * (b - a) - 1) + 1
      = a + ((a + 1) * (b - a) - 1 - a) + (a + 1) * (b - a) := by omega
  rw [h2, ← spow_shift_mult I y a (b - a) heq (a + 1) ((a + 1) * (b - a) - 1 - a)]
  have h3 : a + ((a + 1) * (b - a) - 1 - a) = (a + 1) * (b - a) - 1 := by omega
  rw [h3]

/-- In a finite carrier with an associative product, some power of
every element is idempotent. -/
theorem exists_idem_spow {E : Type} [Fintype E] (I : KInst E)
    (hassoc : ∀ a b c, I.mul (I.mul a b) c = I.mul a (I.mul b c)) (y : E) :
    ∃ n, I.mul (spow I y n) (spow I y n) = spow I y n := by
  obtain ⟨i, j, hne, heq⟩ := Fintype.exists_ne_map_eq_of_card_lt
    (fun k : Fin (Fintype.card E + 1) => spow I y (k : Nat))
    (by simp)
  have hvalne : (i : Nat) ≠ (j : Nat) := fun hv => hne (Fin.ext hv)
  rcases Nat.lt_or_ge (i : Nat) (j : Nat) with hlt | hge
  · exact exists_idem_spow_of_repeat I hassoc y i j hlt heq
  · have hlt : (j : Nat) < (i : Nat) := by omega
    exact exists_idem_spow_of_repeat I hassoc y j i hlt heq.symm

/-- Any value returned by the `idem_in_H_class` loop is idempotent. -/
theorem idem_loop_some_idem {E : Type} [DecidableEq E] (I : KInst E) (bm : E) :
    ∀ fuel tmp e, idem_loop I bm fuel tmp = some e → I.mul e e = e := by
  intro fuel
  induction fuel with
  | zero => intro tmp e h; exact absurd h (by simp [idem_loop])
  | succ n ih =>
      intro tmp e h
      by_cases hi : I.mul tmp tmp = tmp
      · have he : tmp = e := by simpa [idem_loop, hi] using h
        rw [← he]; exact hi
      · rw [show idem_loop I bm (n + 1) tmp = idem_loop I bm n (I.mul tmp bm) by
            simp [idem_loop, hi]] at h
        exact ih _ _ h

/-- If some power within reach of the fuel is idempotent, the
`idem_in_H_class` loop returns a value. -/
theorem idem_loop_reaches {E : Type} [DecidableEq E] (I : KInst E) (bm : E) :
    ∀ n k t, k < n →
      I.mul (spow I bm (t + k)) (spow I bm (t + k)) = spow I bm (t + k) →
      ∃ e, idem_loop I bm n (spow I bm t) = some e := by
  intro n
  induction n with
  | zero => intro k t hk; omega
  | succ n ih =>
      intro k t hk hidem
      by_cases hi : I.mul (spow I bm t) (spow I bm t) = spow I bm t
      · exact ⟨spow I bm t, by simp [idem_loop, hi]⟩
      · have hk0 : k ≠ 0 := by
          rintro rfl
          simp only [Nat.add_zero] at hidem
          exact hi hidem
        rw [show idem_loop I bm (n + 1) (spow I bm t)
            = idem_loop I bm n (I.mul (spow I bm t) bm) by simp [idem_loop, hi]]
        have h2 : I.mul (spow I bm t) bm = spow I bm (t + 1) := rfl
        rw [h2]
        refine ih (k - 1) (t + 1) (by omega) ?_
        have h3 : t + 1 + (k - 1) = t + k := by omega
        rw [h3]
        exact hidem

/-- The `idem_in_H_class` loop started at a power returns a power. -/
theorem idem_loop_result_pow {E : Type} [DecidableEq E] (I : KInst E) (bm : E) :
    ∀ n t e, idem_loop I bm n (spow I bm t) = some e → ∃ k, e = spow I bm k := by
  intro n
  induction n with
  | zero => intro t e h; exact absurd h (by simp [idem_loop])
  | succ n ih =>
      intro t e h
      by_cases hi : I.mul (spow I bm t) (spow I bm t) = spow I bm t
      · have he : spow I bm t = e := by simpa [idem_loop, hi] using h
        exact ⟨t, he.symm⟩
      · rw [show idem_loop I bm (n + 1) (spow I bm t)
            = idem_loop I bm n (I.mul (spow I bm t) bm) by simp [idem_loop, hi]] at h
        exact ih (t + 1) e h

/-- Reduction of `find_idem` on a regular, non-idempotent element: the
result is the `idem_in_H_class` loop applied to
x * multiplier_to_scc_root(position(lambda(x))) *
multiplier_from_scc_root(group index of x). -/
theorem find_idem_with_regular_red {E : Type} [DecidableEq E] (I : KInst E)
    (sentinel : E) (fuel : Nat) (m : GroupIndexMap) (x : E)
    (hx : ¬ I.mul x x = x) (hreg : (is_regular_element I m x).1 = true) :
    find_idem_with I sentinel fuel m x
      = (idem_in_H_cls I fuel
          (I.mul (I.mul x (I.lamMultToRoot (I.lamOrbPos (I.lam x))))
            (I.lamMultFromRoot (find_group_index I (is_regular_element I m x).2 x).1)),
         (find_group_index I (is_regular_element I m x).2 x).2) := by
  simp only [find_idem_with]
  rw [if_neg hx, if_neg (by rw [hreg]; simp)]

/-- C3 (amended): for every element classified regular, the code's
iteration — successive powers of the start value
y0 = x * m(lambda(x) to SCC root) * m(SCC root to group index) —
terminates with enough fuel, and the value `find_idem` returns is
idempotent and lies in the D-class of x.  The D-membership conjunct is
proved from the spec's own trait laws, taken as hypotheses: elements
with equal rho values are R-equivalent (the glossary's "rho values
distinguish R-classes"); the start value y0 shares rho(x) (the spec's
"right-multiplying by the orbit representative at j returns x into an
H-class" of its R-class); and the H-class of y0 located by the group
index is a group, hence closed under the product (the spec's "the
sequence enters a finite group"). -/
theorem C3_amended_find_idem {E : Type} [DecidableEq E] [Fintype E] (I : KInst E)
    (sentinel : E)
    (hassoc : ∀ a b c, I.mul (I.mul a b) c = I.mul a (I.mul b c))
    (m : GroupIndexMap) (x y0 : E)
    (hreg : (is_regular_element I m x).1 = true)
    (hy0 : y0 = I.mul (I.mul x (I.lamMultToRoot (I.lamOrbPos (I.lam x))))
        (I.lamMultFromRoot (find_group_index I (is_regular_element I m x).2 x).1))
    (hT2 : ∀ a b, I.rho a = I.rho b → green_r I.mul a b)
    (hrho : I.rho y0 = I.rho x)
    (hH : ∀ a b, I.rho a = I.rho y0 → I.lam a = I.lam y0 →
        I.rho b = I.rho y0 → I.lam b = I.lam y0 →
        I.rho (I.mul a b) = I.rho y0 ∧ I.lam (I.mul a b) = I.lam y0) :
    (∃ fuel e m2, find_idem_with I sentinel fuel m x = (some e, m2)
       ∧ I.mul e e = e ∧ green_d I.mul e x)
    ∧ (∀ fuel e m2, find_idem_with I sentinel fuel m x = (some e, m2) →
        I.mul e e = e ∧ green_d I.mul e x) := by
  have hpow : ∀ k, I.rho (spow I y0 k) = I.rho y0 ∧ I.lam (spow I y0 k) = I.lam y0 := by
    intro k
    induction k with
    | zero => exact ⟨rfl, rfl⟩
    | succ k ih => exact hH (spow I y0 k) y0 ih.1 ih.2 rfl rfl
  have hgd : ∀ k, green_d I.mul (spow I y0 k) x := by
    intro k
    refine ⟨spow I y0 k, ⟨Or.inl rfl, Or.inl rfl⟩, hT2 _ _ ?_⟩
    rw [(hpow k).1, hrho]
  by_cases hx : I.mul x x = x
  · have hdx : green_d I.mul x x := ⟨x, ⟨Or.inl rfl, Or.inl rfl⟩, ⟨Or.inl rfl, Or.inl rfl⟩⟩
    constructor
    · exact ⟨1, x, m, by simp [find_idem_with, hx], hx, hdx⟩
    · intro fuel e m2 he
      rw [show find_idem_with I sentinel fuel m x = (some x, m) by
          simp [find_idem_with, hx]] at he
      injection he with h1 h2
      injection h1 with h1
      rw [← h1]
      exact ⟨hx, hdx⟩
  · have hred : ∀ fuel, find_idem_with I sentinel fuel m x
        = (idem_in_H_cls I fuel y0,
           (find_group_index I (is_regular_element I m x).2 x).2) := by
      intro fuel
      rw [hy0]
      exact find_idem_with_regular_red I sentinel fuel m x hx hreg
    constructor
    · obtain ⟨n, hn⟩ := exists_idem_spow I hassoc y0
      have hn2 : I.mul (spow I y0 (0 + n)) (spow I y0 (0 + n)) = spow I y0 (0 + n) := by
        simpa using hn
      obtain ⟨e, he⟩ := idem_loop_reaches I y0 (n + 1) n 0 (Nat.lt_succ_self n) hn2
      have he2 : idem_in_H_cls I (n + 1) y0 = some e := he
      obtain ⟨k, hk⟩ := idem_loop_result_pow I y0 (n + 1) 0 e he
      refine ⟨n + 1, e, (find_group_index I (is_regular_element I m x).2 x).2, ?_, ?_, ?_⟩
      · rw [hred (n + 1), he2]
      · exact idem_loop_some_idem I y0 (n + 1) y0 e he2
      · rw [hk]
        exact hgd k
    · intro fuel e m2 he
      rw [hred fuel] at he
      injection he with h1 h2
      obtain ⟨k, hk⟩ := idem_loop_result_pow I y0 fuel 0 e h1
      refine ⟨idem_loop_some_idem I _ fuel _ _ h1, ?_⟩
      rw [hk]
      exact hgd k

/-- C3 helper: the spec's iteration y ← y * x at x = (0,1,col 1) in the
Rees instance cycles through (0,0,col 1) and (0,2,col 1) from the start
value (0,3,col 0) without ever meeting an idempotent, so it returns
`none` for every amount of fuel. -/
theorem claimed_iteration_stuck :
    ∀ n y, (y = ReesElt.a 3 0 ∨ y = ReesElt.a 0 1 ∨ y = ReesElt.a 2 1) →
      claimed_idem_iteration reesInst (ReesElt.a 1 1) n y = none := by
  intro n
  induction n with
  | zero => intro y hy; rfl
  | succ n ih =>
      intro y hy
      rcases hy with rfl | rfl | rfl
      · show claimed_idem_iteration reesInst (ReesElt.a 1 1) (n + 1) (ReesElt.a 3 0) = none
        rw [show claimed_idem_iteration reesInst (ReesElt.a 1 1) (n + 1) (ReesElt.a 3 0)
            = claimed_idem_iteration reesInst (ReesElt.a 1 1) n
                (reesInst.mul (ReesElt.a 3 0) (ReesElt.a 1 1)) by
          simp only [claimed_idem_iteration]; rw [if_neg (by decide)]]
        exact ih _ (by decide)
      · rw [show claimed_idem_iteration reesInst (ReesElt.a 1 1) (n + 1) (ReesElt.a 0 1)
            = claimed_idem_iteration reesInst (ReesElt.a 1 1) n
                (reesInst.mul (ReesElt.a 0 1) (ReesElt.a 1 1)) by
          simp only [claimed_idem_iteration]; rw [if_neg (by decide)]]
        exact ih _ (by decide)
      · rw [show claimed_idem_iteration reesInst (ReesElt.a 1 1) (n + 1) (ReesElt.a 2 1)
            = claimed_idem_iteration reesInst (ReesElt.a 1 1) n
                (reesInst.mul (ReesElt.a 2 1) (ReesElt.a 1 1)) by
          simp only [claimed_idem_iteration]; rw [if_neg (by decide)]]
        exact ih _ (by decide)

/-- C3 counterexample: in the Rees instance, x = (0,1,col 1) is regular
and non-idempotent, the start value x * m(lambda(x) to root) *
m(root to group index) is (0,3,col 0), and the iteration y ← y * x the
claim describes never terminates — while the code's iteration (powers
of the start value) terminates with the idempotent (0,0,col 0). -/
theorem C3_counterexample :
    (is_regular_element reesInst [] (ReesElt.a 1 1)).1 = true
    ∧ reesInst.mul (ReesElt.a 1 1) (ReesElt.a 1 1) ≠ ReesElt.a 1 1
    ∧ reesInst.mul
        (reesInst.mul (ReesElt.a 1 1)
          (reesInst.lamMultToRoot (reesInst.lamOrbPos (reesInst.lam (ReesElt.a 1 1)))))
        (reesInst.lamMultFromRoot (find_group_index reesInst [] (ReesElt.a 1 1)).1)
      = ReesElt.a 3 0
    ∧ (∀ n, claimed_idem_iteration reesInst (ReesElt.a 1 1) n (ReesElt.a 3 0) = none)
    ∧ (find_idem_with reesInst ReesElt.u 4 [] (ReesElt.a 1 1)).1 = some (ReesElt.a 0 0)
    ∧ reesInst.mul (ReesElt.a 0 0) (ReesElt.a 0 0) = ReesElt.a 0 0 := by
  refine ⟨by decide, by decide, by decide, ?_, by decide, by decide⟩
  intro n
  exact claimed_iteration_stuck n _ (Or.inl rfl)

/-- C3 witness: in the two-element group instance the regular element 1
has start value y0 = 1, and `find_idem` terminates on an idempotent in
the D-class of 1; all trait-law hypotheses hold concretely. -/
theorem C3_amended_find_idem_witness :
    ∃ fuel e m2, find_idem_with fin2Inst 0 fuel [] 1 = (some e, m2)
      ∧ fin2Inst.mul e e = e ∧ green_d fin2Inst.mul e 1 :=
  (C3_amended_find_idem fin2Inst 0 (by decide) [] 1 1 (by decide) (by decide)
    (by decide) (by decide) (by decide)).1

/-- C4 counterexample: for the generator set {swap2} no generator is
the identity of the working degree 2, yet because the swap is a
permutation (swap2 * swap2^T = one(2)) nothing is appended and
`_unit_in_gens` is set — where the claim demands that the identity be
appended with the adjoined flag recorded. -/
theorem C4_counterexample :
    swap2 ≠ BMat8.one (compute_min_possible_dim [swap2])
    ∧ compute_min_possible_dim [swap2] = 2
    ∧ conditional_add_identity [swap2] = ([swap2], true) := by
  exact ⟨by decide, by decide, by decide⟩

/-- C4 (amended): the identity of the working degree n is appended (and
the flag left false, recording the adjunction) exactly when no generator
g satisfies g * g^T = one(n), i.e. when no generator is a permutation
matrix of degree n; if some generator is such a permutation, nothing is
appended and the flag is set. -/
theorem C4_amended_add_identity (gens : List BMat8) :
    ((∃ g ∈ gens,
        BMat8.mul g (BMat8.transpose g) = BMat8.one (compute_min_possible_dim gens)) →
      conditional_add_identity gens = (gens, true))
    ∧ ((∀ g ∈ gens,
        BMat8.mul g (BMat8.transpose g) ≠ BMat8.one (compute_min_possible_dim gens)) →
      conditional_add_identity gens
        = (gens ++ [BMat8.one (compute_min_possible_dim gens)], false)) := by
  constructor
  · rintro ⟨g, hg, he⟩
    have hany : gens.any (fun x => decide
        (BMat8.mul x (BMat8.transpose x) = BMat8.one (compute_min_possible_dim gens)))
          = true :=
      List.any_eq_true.mpr ⟨g, hg, by simp [he]⟩
    simp only [conditional_add_identity]
    rw [if_pos hany]
  · intro h
    have hany : gens.any (fun x => decide
        (BMat8.mul x (BMat8.transpose x) = BMat8.one (compute_min_possible_dim gens)))
          = false := by
      rw [Bool.eq_false_iff]
      intro hc
      obtain ⟨g, hg, hP⟩ := List.any_eq_true.mp hc
      exact h g hg (of_decide_eq_true hP)
    simp only [conditional_add_identity]
    rw [if_neg (by simp [hany])]

/-- C4 witness: the amended condition applied to {swap2} leaves the
generators unchanged with the flag set. -/
theorem C4_amended_add_identity_witness :
    conditional_add_identity [swap2] = ([swap2], true) :=
  (C4_amended_add_identity [swap2]).1 ⟨swap2, by decide, by decide⟩

/-- The inner loop of `nr_idempotents` counts the right indices passing
the test. -/
theorem nr_idem_foldl_inner {E : Type} [DecidableEq E] (I : KInst E) (i : Nat) :
    ∀ (ridx : List Nat) (c : Nat),
      ridx.foldl
        (fun c2 j => if is_group_index I (I.rhoOrbAt j) (I.lamOrbAt i) then c2 + 1 else c2)
        c
        = c + ridx.countP (fun j => is_group_index I (I.rhoOrbAt j) (I.lamOrbAt i)) := by
  intro ridx
  induction ridx with
  | nil => intro c; simp
  | cons j t ih =>
      intro c
      rw [List.foldl_cons, List.countP_cons]
      by_cases hj : is_group_index I (I.rhoOrbAt j) (I.lamOrbAt i) = true
      · rw [if_pos hj, ih, if_pos hj]
        omega
      · rw [if_neg hj, ih, if_neg hj]
        omega

/-- The double loop of `nr_idempotents` equals the sum over left
indices of the counts of passing right indices. -/
theorem nr_idempotents_eq {E : Type} [DecidableEq E] (I : KInst E) (ridx : List Nat) :
    ∀ (lidx : List Nat) (c : Nat),
      lidx.foldl
        (fun c1 i =>
          ridx.foldl
            (fun c2 j =>
              if is_group_index I (I.rhoOrbAt j) (I.lamOrbAt i) then c2 + 1 else c2)
            c1)
        c
        = c + (lidx.map
            (fun i => ridx.countP
              (fun j => is_group_index I (I.rhoOrbAt j) (I.lamOrbAt i)))).sum := by
  intro lidx
  induction lidx with
  | nil => intro c; simp
  | cons i t ih =>
      intro c
      rw [List.foldl_cons, List.map_cons, List.sum_cons, nr_idem_foldl_inner I i ridx c, ih]
      omega

/-- C5 counterexample: in the Brandt instance B2, the regular D class
of the idempotent representative e 0 0 has left indices [1, 2] and
right indices [1, 2] (as computed by the code), `nr_idempotents`
returns 2 (the true number of idempotents), but the pair count the
claim describes — pairs with
lambda(rho_orbit[j] * lambda_orbit[i]) = lambda_orbit[i] — is 4. -/
theorem C5_counterexample :
    (compute_left_indices brandtInst (BrElt.e 0 0) []).1 = [1, 2]
    ∧ (compute_right_indices brandtInst (BrElt.e 0 0) []).1 = [1, 2]
    ∧ nr_idempotents brandtInst [1, 2] [1, 2] = 2
    ∧ claim_pair_count brandtInst [1, 2] [1, 2] = 4
    ∧ nr_idempotents brandtInst [1, 2] [1, 2]
        ≠ claim_pair_count brandtInst [1, 2] [1, 2] := by
  exact ⟨by decide, by decide, by decide, by decide, by decide⟩

/-- The double loop of `nr_idempotents` produces the countP sum, and
the count is positive as soon as one pair of indices passes the
`is_group_index` test. -/
theorem nr_idempotents_pos_of_pair {E : Type} [DecidableEq E] (I : KInst E)
    (lidx ridx : List Nat)
    (hpos : ∃ i ∈ lidx, ∃ j ∈ ridx,
      is_group_index I (I.rhoOrbAt j) (I.lamOrbAt i) = true) :
    nr_idempotents I lidx ridx
      = (lidx.map
          (fun i => ridx.countP
            (fun j => is_group_index I (I.rhoOrbAt j) (I.lamOrbAt i)))).sum
    ∧ 0 < nr_idempotents I lidx ridx := by
  have he : nr_idempotents I lidx ridx
      = (lidx.map
          (fun i => ridx.countP
            (fun j => is_group_index I (I.rhoOrbAt j) (I.lamOrbAt i)))).sum := by
    unfold nr_idempotents
    rw [nr_idempotents_eq I ridx lidx 0]
    omega
  refine ⟨he, ?_⟩
  obtain ⟨i, hi, j, hj, hP⟩ := hpos
  rw [he]
  have h1 : 0 < ridx.countP (fun j => is_group_index I (I.rhoOrbAt j) (I.lamOrbAt i)) :=
    List.countP_pos_iff.mpr ⟨j, hj, hP⟩
  have h2 : ridx.countP (fun j => is_group_index I (I.rhoOrbAt j) (I.lamOrbAt i))
      ∈ lidx.map (fun i => ridx.countP
          (fun j => is_group_index I (I.rhoOrbAt j) (I.lamOrbAt i))) :=
    List.mem_map_of_mem _ hi
  have h3 := List.single_le_sum (l := lidx.map (fun i => ridx.countP
      (fun j => is_group_index I (I.rhoOrbAt j) (I.lamOrbAt i))))
    (fun b _ => Nat.zero_le b) _ h2
  omega

/-- One `compute_left_indices` iteration appends its member exactly
when the inner search succeeds, and preserves the alt-map invariant. -/
theorem cli_step_spec {E : Type} [DecidableEq E] (I : KInst E) (rscc : Nat)
    (acc : List Nat × GroupIndexMap) (it : Nat) (h : AltOk I acc.2) :
    ((cli_step I rscc acc it).1
      = acc.1 ++ (if alt_search I rscc it ≠ UNDEFINED then [it] else []))
    ∧ AltOk I (cli_step I rscc acc it).2 := by
  cases hfind : mapFind acc.2 (rscc, it) with
  | some v =>
      have hv : v = alt_search I rscc it := h rscc it v hfind
      have hc : cli_step I rscc acc it
          = if v ≠ UNDEFINED then (acc.1 ++ [it], acc.2) else (acc.1, acc.2) := by
        simp only [cli_step, hfind]
      rw [hc, hv]
      by_cases hU : alt_search I rscc it ≠ UNDEFINED
      · rw [if_pos hU, if_pos hU]
        exact ⟨rfl, h⟩
      · rw [if_neg hU, if_neg hU]
        exact ⟨by simp, h⟩
  | none =>
      have hc : cli_step I rscc acc it
          = if alt_search I rscc it ≠ UNDEFINED
            then (acc.1 ++ [it], ((rscc, it), alt_search I rscc it) :: acc.2)
            else (acc.1, ((rscc, it), alt_search I rscc it) :: acc.2) := by
        simp only [cli_step, hfind]
        rw [show mapFind (((rscc, it), alt_search I rscc it) :: acc.2) (rscc, it)
            = some (alt_search I rscc it) by simp [mapFind]]
      have hAlt : AltOk I (((rscc, it), alt_search I rscc it) :: acc.2) := by
        intro r2 i2 v2 hv2
        simp only [mapFind] at hv2
        by_cases hk : ((rscc, it) : Nat × Nat) = (r2, i2)
        · rw [if_pos hk] at hv2
          have h1 : rscc = r2 := congrArg Prod.fst hk
          have h2 : it = i2 := congrArg Prod.snd hk
          cases hv2
          rw [← h1, ← h2]
        · rw [if_neg hk] at hv2
          exact h r2 i2 v2 hv2
      rw [hc]
      by_cases hU : alt_search I rscc it ≠ UNDEFINED
      · rw [if_pos hU, if_pos hU]
        exact ⟨rfl, hAlt⟩
      · rw [if_neg hU, if_neg hU]
        exact ⟨by simp, hAlt⟩

/-- The `compute_left_indices` loop keeps exactly the SCC members whose
inner search succeeds, preserving the alt-map invariant. -/
theorem cli_fold_spec {E : Type} [DecidableEq E] (I : KInst E) (rscc : Nat) :
    ∀ (ms : List Nat) (acc : List Nat × GroupIndexMap), AltOk I acc.2 →
      ((ms.foldl (cli_step I rscc) acc).1
        = acc.1 ++ ms.filter (fun it => decide (alt_search I rscc it ≠ UNDEFINED)))
      ∧ AltOk I (ms.foldl (cli_step I rscc) acc).2 := by
  intro ms
  induction ms with
  | nil => intro acc h; exact ⟨by simp, h⟩
  | cons it ms ih =>
      intro acc h
      rw [List.foldl_cons]
      obtain ⟨h1, h2⟩ := cli_step_spec I rscc acc it h
      obtain ⟨h3, h4⟩ := ih (cli_step I rscc acc it) h2
      refine ⟨?_, h4⟩
      rw [h3, h1]
      by_cases hU : alt_search I rscc it ≠ UNDEFINED
      · simp [List.filter_cons, hU]
      · simp [List.filter_cons, hU]

/-- A member of the scanned lambda-orbit SCC whose inner search
succeeds is kept by `compute_left_indices`. -/
theorem compute_left_indices_mem {E : Type} [DecidableEq E] (I : KInst E) (rep : E)
    (alt : GroupIndexMap) (halt : AltOk I alt) (it : Nat)
    (hmem : it ∈ I.lamSccMembers (I.lamSccId (I.lamOrbPos (I.lam rep))))
    (hfound : alt_search I (I.rhoSccId (I.rhoOrbPos (I.rho rep))) it ≠ UNDEFINED) :
    it ∈ (compute_left_indices I rep alt).1 := by
  have h := (cli_fold_spec I (I.rhoSccId (I.rhoOrbPos (I.rho rep)))
    (I.lamSccMembers (I.lamSccId (I.lamOrbPos (I.lam rep)))) ([], alt) halt).1
  show it ∈ ((I.lamSccMembers (I.lamSccId (I.lamOrbPos (I.lam rep)))).foldl
    (cli_step I (I.rhoSccId (I.rhoOrbPos (I.rho rep)))) ([], alt)).1
  rw [h]
  simp only [List.nil_append, List.mem_filter]
  exact ⟨hmem, decide_eq_true hfound⟩

/-- The inner search of `compute_left_indices` succeeds as soon as some
member of the rho-orbit SCC passes the `is_group_index` test. -/
theorem alt_search_found {E : Type} [DecidableEq E] (I : KInst E) (rscc it it2 : Nat)
    (h2 : it2 ∈ I.rhoSccMembers rscc)
    (hP : is_group_index I (I.rhoOrbAt it2) (I.lamOrbAt it) = true)
    (hnm : ∀ q ∈ I.rhoSccMembers rscc, q ≠ UNDEFINED) :
    alt_search I rscc it ≠ UNDEFINED := by
  unfold alt_search
  cases hf : (I.rhoSccMembers rscc).find?
      (fun q => is_group_index I (I.rhoOrbAt q) (I.lamOrbAt it)) with
  | none =>
      have := List.find?_eq_none.mp hf it2 h2
      exact absurd hP this
  | some q =>
      exact hnm q (List.mem_of_find?_eq_some hf)

/-- One `compute_right_indices` iteration appends its member exactly
when the SCC scan at the probe element succeeds, and preserves the
memo-map invariant. -/
theorem cri_step_spec {E : Type} [DecidableEq E] (I : KInst E) (rval_pos : Nat) (rep : E)
    (acc : List Nat × GroupIndexMap) (it : Nat) (h : MapOk I acc.2)
    (hinj : Function.Injective I.toInt) :
    ((cri_step I rval_pos rep acc it).1
      = acc.1 ++ (if search_group_index I
          (I.rho (I.mul (I.mul (I.rhoMultFromRoot it) (I.rhoMultToRoot rval_pos)) rep))
          (I.lamSccId (I.lamOrbPos (I.lam
            (I.mul (I.mul (I.rhoMultFromRoot it) (I.rhoMultToRoot rval_pos)) rep))))
          ≠ UNDEFINED then [it] else []))
    ∧ MapOk I (cri_step I rval_pos rep acc it).2 := by
  have hfst := find_group_index_fst I acc.2
    (I.mul (I.mul (I.rhoMultFromRoot it) (I.rhoMultToRoot rval_pos)) rep) h
  have hok := find_group_index_mapok I acc.2
    (I.mul (I.mul (I.rhoMultFromRoot it) (I.rhoMultToRoot rval_pos)) rep) h hinj
  simp only [cri_step]
  by_cases hU : (find_group_index I acc.2
      (I.mul (I.mul (I.rhoMultFromRoot it) (I.rhoMultToRoot rval_pos)) rep)).1
      ≠ UNDEFINED
  · have hU2 : search_group_index I
        (I.rho (I.mul (I.mul (I.rhoMultFromRoot it) (I.rhoMultToRoot rval_pos)) rep))
        (I.lamSccId (I.lamOrbPos (I.lam
          (I.mul (I.mul (I.rhoMultFromRoot it) (I.rhoMultToRoot rval_pos)) rep))))
        ≠ UNDEFINED := by
      rw [← hfst]; exact hU
    rw [if_pos hU, if_pos hU2]
    exact ⟨rfl, hok⟩
  · have hU2 : ¬ search_group_index I
        (I.rho (I.mul (I.mul (I.rhoMultFromRoot it) (I.rhoMultToRoot rval_pos)) rep))
        (I.lamSccId (I.lamOrbPos (I.lam
          (I.mul (I.mul (I.rhoMultFromRoot it) (I.rhoMultToRoot rval_pos)) rep))))
        ≠ UNDEFINED := by
      rw [← hfst]; exact hU
    rw [if_neg hU, if_neg hU2]
    exact ⟨by simp, hok⟩

/-- The `compute_right_indices` loop keeps exactly the SCC members
whose probe element has a group index, preserving the memo-map
invariant. -/
theorem cri_fold_spec {E : Type} [DecidableEq E] (I : KInst E) (rval_pos : Nat) (rep : E)
    (hinj : Function.Injective I.toInt) :
    ∀ (ms : List Nat) (acc : List Nat × GroupIndexMap), MapOk I acc.2 →
      ((ms.foldl (cri_step I rval_pos rep) acc).1
        = acc.1 ++ ms.filter (fun it => decide (search_group_index I
            (I.rho (I.mul (I.mul (I.rhoMultFromRoot it) (I.rhoMultToRoot rval_pos)) rep))
            (I.lamSccId (I.lamOrbPos (I.lam
              (I.mul (I.mul (I.rhoMultFromRoot it) (I.rhoMultToRoot rval_pos)) rep))))
            ≠ UNDEFINED)))
      ∧ MapOk I (ms.foldl (cri_step I rval_pos rep) acc).2 := by
  intro ms
  induction ms with
  | nil => intro acc h; exact ⟨by simp, h⟩
  | cons it ms ih =>
      intro acc h
      rw [List.foldl_cons]
      obtain ⟨h1, h2⟩ := cri_step_spec I rval_pos rep acc it h hinj
      obtain ⟨h3, h4⟩ := ih (cri_step I rval_pos rep acc it) h2
      refine ⟨?_, h4⟩
      rw [h3, h1]
      by_cases hU : search_group_index I
          (I.rho (I.mul (I.mul (I.rhoMultFromRoot it) (I.rhoMultToRoot rval_pos)) rep))
          (I.lamSccId (I.lamOrbPos (I.lam
            (I.mul (I.mul (I.rhoMultFromRoot it) (I.rhoMultToRoot rval_pos)) rep))))
          ≠ UNDEFINED
      · simp [List.filter_cons, hU]
      · simp [List.filter_cons, hU]

/-- A member of the scanned rho-orbit SCC whose probe element has a
group index is kept by `compute_right_indices`. -/
theorem compute_right_indices_mem {E : Type} [DecidableEq E] (I : KInst E) (rep : E)
    (gi : GroupIndexMap) (hgi : MapOk I gi) (hinj : Function.Injective I.toInt)
    (it : Nat)
    (hmem : it ∈ I.rhoSccMembers (I.rhoSccId (I.rhoOrbPos (I.rho rep))))
    (hfound : search_group_index I
        (I.rho (I.mul (I.mul (I.rhoMultFromRoot it)
          (I.rhoMultToRoot (I.rhoOrbPos (I.rho rep)))) rep))
        (I.lamSccId (I.lamOrbPos (I.lam (I.mul (I.mul (I.rhoMultFromRoot it)
          (I.rhoMultToRoot (I.rhoOrbPos (I.rho rep)))) rep)))) ≠ UNDEFINED) :
    it ∈ (compute_right_indices I rep gi).1 := by
  have h := (cri_fold_spec I (I.rhoOrbPos (I.rho rep)) rep hinj
    (I.rhoSccMembers (I.rhoSccId (I.rhoOrbPos (I.rho rep)))) ([], gi) hgi).1
  show it ∈ ((I.rhoSccMembers (I.rhoSccId (I.rhoOrbPos (I.rho rep)))).foldl
    (cri_step I (I.rhoOrbPos (I.rho rep)) rep) ([], gi)).1
  rw [h]
  simp only [List.nil_append, List.mem_filter]
  exact ⟨hmem, decide_eq_true hfound⟩

/-- C5 (amended): for a regular D class — idempotent representative
`rep`, which passes its own group-index test — `nr_idempotents` over
the left and right index lists the code computes returns the number of
pairs (i, j) of a left index and a right index passing the code's test
`is_group_index(rho_orbit[j], lambda_orbit[i])`, i.e. with
lambda(lambda_orbit[i] * rho_orbit[j]) = lambda(rho_orbit[j]) and
rho(lambda_orbit[i] * rho_orbit[j]) = rho(lambda_orbit[i]); and this
count is positive.  (Stated under orbit/memo well-formedness: the orbit
positions of lambda(rep) and rho(rep) index back to those values and
lie in their SCC member lists, SCC members differ from the `UNDEFINED`
sentinel, the right-index probe at the representative's own position
keeps the representative's rho value and lambda SCC, the threaded maps
are consistent, and to_int is injective.) -/
theorem C5_amended_nr_idempotents {E : Type} [DecidableEq E] (I : KInst E)
    (rep : E) (alt gi : GroupIndexMap)
    (_hidem : I.mul rep rep = rep)
    (hrep : is_group_index I (I.rho rep) (I.lam rep) = true)
    (hL1 : I.lamOrbAt (I.lamOrbPos (I.lam rep)) = I.lam rep)
    (hR1 : I.rhoOrbAt (I.rhoOrbPos (I.rho rep)) = I.rho rep)
    (hLmem : I.lamOrbPos (I.lam rep)
      ∈ I.lamSccMembers (I.lamSccId (I.lamOrbPos (I.lam rep))))
    (hRmem : I.rhoOrbPos (I.rho rep)
      ∈ I.rhoSccMembers (I.rhoSccId (I.rhoOrbPos (I.rho rep))))
    (hnmLam : ∀ j ∈ I.lamSccMembers (I.lamSccId (I.lamOrbPos (I.lam rep))),
      j ≠ UNDEFINED)
    (hnmRho : ∀ q ∈ I.rhoSccMembers (I.rhoSccId (I.rhoOrbPos (I.rho rep))),
      q ≠ UNDEFINED)
    (hrx : I.rho (I.mul (I.mul (I.rhoMultFromRoot (I.rhoOrbPos (I.rho rep)))
        (I.rhoMultToRoot (I.rhoOrbPos (I.rho rep)))) rep) = I.rho rep)
    (hsx : I.lamSccId (I.lamOrbPos (I.lam (I.mul (I.mul
        (I.rhoMultFromRoot (I.rhoOrbPos (I.rho rep)))
        (I.rhoMultToRoot (I.rhoOrbPos (I.rho rep)))) rep)))
      = I.lamSccId (I.lamOrbPos (I.lam rep)))
    (halt : AltOk I alt) (hgi : MapOk I gi)
    (hinj : Function.Injective I.toInt) :
    nr_idempotents I (compute_left_indices I rep alt).1
        (compute_right_indices I rep gi).1
      = ((compute_left_indices I rep alt).1.map
          (fun i => (compute_right_indices I rep gi).1.countP
            (fun j => is_group_index I (I.rhoOrbAt j) (I.lamOrbAt i)))).sum
    ∧ 0 < nr_idempotents I (compute_left_indices I rep alt).1
        (compute_right_indices I rep gi).1 := by
  have hPrr : is_group_index I (I.rhoOrbAt (I.rhoOrbPos (I.rho rep)))
      (I.lamOrbAt (I.lamOrbPos (I.lam rep))) = true := by
    rw [hR1, hL1]; exact hrep
  have hL : I.lamOrbPos (I.lam rep) ∈ (compute_left_indices I rep alt).1 :=
    compute_left_indices_mem I rep alt halt (I.lamOrbPos (I.lam rep)) hLmem
      (alt_search_found I (I.rhoSccId (I.rhoOrbPos (I.rho rep)))
        (I.lamOrbPos (I.lam rep)) (I.rhoOrbPos (I.rho rep)) hRmem hPrr hnmRho)
  have hsearch : search_group_index I
      (I.rho (I.mul (I.mul (I.rhoMultFromRoot (I.rhoOrbPos (I.rho rep)))
        (I.rhoMultToRoot (I.rhoOrbPos (I.rho rep)))) rep))
      (I.lamSccId (I.lamOrbPos (I.lam (I.mul (I.mul
        (I.rhoMultFromRoot (I.rhoOrbPos (I.rho rep)))
        (I.rhoMultToRoot (I.rhoOrbPos (I.rho rep)))) rep)))) ≠ UNDEFINED := by
    rw [hrx, hsx]
    exact (search_group_index_spec I (I.rho rep)
        (I.lamSccId (I.lamOrbPos (I.lam rep))) hnmLam).2.2.mpr
      ⟨I.lamOrbPos (I.lam rep), hLmem, by rw [hL1]; exact hrep⟩
  have hR : I.rhoOrbPos (I.rho rep) ∈ (compute_right_indices I rep gi).1 :=
    compute_right_indices_mem I rep gi hgi hinj (I.rhoOrbPos (I.rho rep)) hRmem hsearch
  exact nr_idempotents_pos_of_pair I _ _
    ⟨I.lamOrbPos (I.lam rep), hL, I.rhoOrbPos (I.rho rep), hR, hPrr⟩

/-- C5 witness: the amended characterisation applied to the Brandt
instance's regular D class of the idempotent e 0 0, whose computed
index lists are [1, 2] and [1, 2] and whose idempotent count is the
positive number 2. -/
theorem C5_amended_nr_idempotents_witness :
    nr_idempotents brandtInst (compute_left_indices brandtInst (BrElt.e 0 0) []).1
        (compute_right_indices brandtInst (BrElt.e 0 0) []).1
      = ((compute_left_indices brandtInst (BrElt.e 0 0) []).1.map
          (fun i => (compute_right_indices brandtInst (BrElt.e 0 0) []).1.countP
            (fun j => is_group_index brandtInst (brandtInst.rhoOrbAt j)
              (brandtInst.lamOrbAt i)))).sum
    ∧ 0 < nr_idempotents brandtInst
        (compute_left_indices brandtInst (BrElt.e 0 0) []).1
        (compute_right_indices brandtInst (BrElt.e 0 0) []).1 :=
  C5_amended_nr_idempotents brandtInst (BrElt.e 0 0) [] []
    (by decide) (by decide) (by decide) (by decide) (by decide) (by decide)
    (by decide) (by decide) (by decide) (by decide)
    (by intro a b c hc; simp [mapFind] at hc)
    (by intro a b c hc; simp [mapFind] at hc)
    (by decide)

/-- C6 counterexample: adding an already-present point returns the
`UNDEFINED` sentinel, not the point's existing index 0. -/
theorem C6_counterexample :
    (Orb.add_seed (⟨[5], true⟩ : OrbState Nat) 5).2 = UNDEFINED
    ∧ Orb.position (⟨[5], true⟩ : OrbState Nat) 5 = 0
    ∧ (Orb.add_seed (⟨[5], true⟩ : OrbState Nat) 5).2
        ≠ Orb.position (⟨[5], true⟩ : OrbState Nat) 5 := by
  exact ⟨by decide, by decide, by decide⟩

/-- C6 (amended): `add_seed` on a point already present leaves the
state (point list and derived position map) unchanged and returns the
`UNDEFINED` sentinel — not the existing index; a new point is appended
at the next free index, the enumerated flag is cleared, and that index
is returned. -/
theorem C6_amended_add_seed {P : Type} [DecidableEq P] (s : OrbState P) (seed : P) :
    (seed ∈ s.orb → Orb.add_seed s seed = (s, UNDEFINED))
    ∧ (seed ∉ s.orb →
        Orb.add_seed s seed = (⟨s.orb ++ [seed], false⟩, s.orb.length)) := by
  constructor
  · intro h
    simp only [Orb.add_seed]
    rw [if_pos h]
  · intro h
    simp only [Orb.add_seed]
    rw [if_neg h]

/-- C6 witness: adding a present point and a fresh point to a
one-point orbit. -/
theorem C6_amended_add_seed_witness :
    Orb.add_seed (⟨[5], true⟩ : OrbState Nat) 5 = (⟨[5], true⟩, UNDEFINED)
    ∧ Orb.add_seed (⟨[5], true⟩ : OrbState Nat) 7 = (⟨[5, 7], false⟩, 1) := by
  constructor
  · exact (C6_amended_add_seed (⟨[5], true⟩ : OrbState Nat) 5).1 (by decide)
  · rw [(C6_amended_add_seed (⟨[5], true⟩ : OrbState Nat) 7).2 (by decide)]
    decide

/-- C7: in a graded orbit whose grader never yields the `UNDEFINED`
sentinel and whose stored points all carry the current grade,
(a) `add_seed` preserves that invariant, (b) when a grade is set, a
seed of a different grade is refused and the state is unchanged,
(c) a point reached during expansion whose grade differs from the
current grade goes to the low-grade side set and the orbit is
unchanged, and (d) `process_new_point` preserves the invariant. -/
theorem C7_graded_orbit {P E : Type} [DecidableEq P] (grader : P → Nat)
    (s : GradedOrbState P E) (seed : P) (x : E) (i : Nat) (pt : P)
    (hg : ∀ p : P, grader p ≠ UNDEFINED)
    (hinv : ∀ p ∈ s.orb, grader p = s.grade) :
    (∀ q ∈ (GradedOrb.add_seed grader s seed).1.orb,
        grader q = (GradedOrb.add_seed grader s seed).1.grade)
    ∧ (s.grade ≠ UNDEFINED → grader seed ≠ s.grade →
        GradedOrb.add_seed grader s seed = (s, UNDEFINED))
    ∧ (grader pt ≠ s.grade →
        (GradedOrb.process_new_point grader s x i pt).orb = s.orb
        ∧ pt ∈ (GradedOrb.process_new_point grader s x i pt).low_grade_points)
    ∧ (∀ q ∈ (GradedOrb.process_new_point grader s x i pt).orb,
        grader q = (GradedOrb.process_new_point grader s x i pt).grade) := by
  refine ⟨?_, ?_, ?_, ?_⟩
  · intro q hq
    by_cases hc : s.grade = UNDEFINED ∨ grader seed = s.grade
    · rw [show GradedOrb.add_seed grader s seed
          = ({ orb := (if seed ∈ s.orb then (s.orb, UNDEFINED)
                  else (s.orb ++ [seed], s.orb.length)).1
               gen_of := s.gen_of ++ [none]
               parent := s.parent ++ [UNDEFINED]
               grade := grader seed
               low_grade_points := s.low_grade_points },
             (if seed ∈ s.orb then (s.orb, UNDEFINED)
                  else (s.orb ++ [seed], s.orb.length)).2) by
          simp only [GradedOrb.add_seed]; rw [if_pos hc]] at hq ⊢
      simp only at hq ⊢
      have hq2 : q ∈ s.orb ∨ q = seed := by
        by_cases hmem : seed ∈ s.orb
        · rw [if_pos hmem] at hq
          exact Or.inl hq
        · rw [if_neg hmem] at hq
          simpa using List.mem_append.mp hq
      rcases hq2 with hq2 | rfl
      · rcases hc with hc | hc
        · exact absurd ((hinv q hq2).trans hc) (hg q)
        · rw [hinv q hq2, hc]
      · rfl
    · rw [show GradedOrb.add_seed grader s seed = (s, UNDEFINED) by
          simp only [GradedOrb.add_seed]; rw [if_neg hc]] at hq ⊢
      exact hinv q hq
  · intro h1 h2
    simp only [GradedOrb.add_seed]
    rw [if_neg (by rintro (hc | hc); exact h1 hc; exact h2 hc)]
  · intro h
    simp only [GradedOrb.process_new_point]
    rw [if_neg h]
    refine ⟨rfl, ?_⟩
    by_cases hm : pt ∈ s.low_grade_points
    · rw [if_pos hm]
      exact hm
    · rw [if_neg hm]
      simp
  · intro q hq
    by_cases h : grader pt = s.grade
    · have hrw : GradedOrb.process_new_point grader s x i pt
          = { s with
              orb := s.orb ++ [pt]
              gen_of := s.gen_of ++ [some x]
              parent := s.parent ++ [i] } := by
        simp only [GradedOrb.process_new_point]
        rw [if_pos h]
      rw [hrw] at hq ⊢
      simp only at hq ⊢
      rcases List.mem_append.mp hq with hq2 | hq2
      · exact hinv q hq2
      · rw [List.mem_singleton.mp hq2]
        exact h
    · have hrw : GradedOrb.process_new_point grader s x i pt
          = { s with
              low_grade_points :=
                if pt ∈ s.low_grade_points then s.low_grade_points
                else s.low_grade_points ++ [pt] } := by
        simp only [GradedOrb.process_new_point]
        rw [if_neg h]
      rw [hrw] at hq ⊢
      exact hinv q hq

/-- C7 witness: the graded orbit with current grade 1 refuses the seed
2 of grade 2 and is left unchanged. -/
theorem C7_graded_orbit_witness :
    GradedOrb.add_seed (fun p : Fin 3 => (p : Nat)) gradedW 2 = (gradedW, UNDEFINED) :=
  (C7_graded_orbit (fun p : Fin 3 => (p : Nat)) gradedW 2 () 0 0
      (by decide) (by decide)).2.1 (by decide) (by decide)

/-- C8: `acquire` fails exactly on an empty acquirable pool and
otherwise moves the top element to the acquired set and returns it;
`release(p)` fails exactly when p is not currently issued by the cache
and otherwise moves p back onto the acquirable stack; both error
branches leave the state unchanged. -/
theorem C8_cache {T : Type} [DecidableEq T] (s : CacheState T) (p : T) :
    ((Cache.acquire s).1 = none ↔ s.acquirable = [])
    ∧ (s.acquirable = [] → (Cache.acquire s).2 = s)
    ∧ (∀ q rest, s.acquirable = q :: rest →
        Cache.acquire s = (some q, ⟨rest, s.acquired ++ [q]⟩))
    ∧ ((Cache.release s p).1 = true ↔ p ∉ s.acquired)
    ∧ (p ∉ s.acquired → (Cache.release s p).2 = s)
    ∧ (p ∈ s.acquired →
        Cache.release s p = (false, ⟨p :: s.acquirable, s.acquired.erase p⟩)) := by
  obtain ⟨aq, ac⟩ := s
  refine ⟨?_, ?_, ?_, ?_, ?_, ?_⟩
  · cases aq with
    | nil => simp [Cache.acquire]
    | cons q rest => simp [Cache.acquire]
  · intro h
    cases aq with
    | nil => rfl
    | cons q rest => exact absurd h (by simp)
  · intro q rest h
    cases aq with
    | nil => exact absurd h (by simp)
    | cons q2 rest2 =>
        injection h with h1 h2
        subst h1; subst h2
        rfl
  · by_cases hm : p ∈ ac
    · simp [Cache.release, hm]
    · simp [Cache.release, hm]
  · intro hm
    simp only [Cache.release]
    rw [if_neg (by simpa using hm)]
  · intro hm
    simp only [Cache.release]
    rw [if_pos (by simpa using hm)]

/-- C8 witness: acquiring from and releasing into a cache holding one
acquirable element 1 and one acquired element 2. -/
theorem C8_cache_witness :
    Cache.acquire cacheW = (some 1, ⟨[], [2, 1]⟩)
    ∧ Cache.release cacheW 2 = (false, ⟨[2, 1], []⟩) := by
  constructor
  · rw [(C8_cache cacheW 2).2.2.1 1 [] rfl]
    decide
  · rw [(C8_cache cacheW 2).2.2.2.2.2 (by decide)]
    decide

/-- C9: constructing and registering a `RegularDClass` raises an error
exactly when the representative is not idempotent, and a
`NonRegularDClass` exactly when it is; on the error branch the D-class
registers of the enclosing Konieczny instance are unchanged, and on
success the class is registered. -/
theorem C9_dclass_constructors {E : Type} [DecidableEq E] (mul : E → E → E)
    (s : KonState E) (rep : E) :
    ((new_regular_dcl mul s rep).2 = true ↔ mul rep rep ≠ rep)
    ∧ (mul rep rep ≠ rep → (new_regular_dcl mul s rep).1 = s)
    ∧ (mul rep rep = rep →
        new_regular_dcl mul s rep = (add_regular_dcl s ⟨rep, [], [], []⟩, false))
    ∧ ((new_non_regular_dcl mul s rep).2 = true ↔ mul rep rep = rep)
    ∧ (mul rep rep = rep → (new_non_regular_dcl mul s rep).1 = s)
    ∧ (mul rep rep ≠ rep →
        new_non_regular_dcl mul s rep = (add_non_regular_dcl s ⟨rep, [], [], []⟩, false)) := by
  by_cases h : mul rep rep = rep <;>
    simp [new_regular_dcl, new_non_regular_dcl, h]

/-- C9 witness: over Z2 the non-idempotent 1 (1 + 1 = 0) makes the
regular constructor fail without registering, and the non-regular
constructor succeed and register. -/
theorem C9_dclass_constructors_witness :
    (new_regular_dcl (fun a b : Fin 2 => a + b) konW 1).1 = konW
    ∧ (new_regular_dcl (fun a b : Fin 2 => a + b) konW 1).2 = true
    ∧ new_non_regular_dcl (fun a b : Fin 2 => a + b) konW 1
        = (add_non_regular_dcl konW ⟨1, [], [], []⟩, false) := by
  have h := C9_dclass_constructors (fun a b : Fin 2 => a + b) konW 1
  exact ⟨h.2.1 (by decide), h.1.mpr (by decide), h.2.2.2.2.2 (by decide)⟩

/-- C10: on an element that is neither idempotent nor regular,
`find_idem` returns the sentinel `BMat8(UNDEFINED)` — the all-ones
matrix — instead of raising an error, and that sentinel is itself
idempotent, so an idempotency test cannot distinguish it from a genuine
result. -/
theorem C10_find_idem_sentinel (I : KInst BMat8) (fuel : Nat) (m : GroupIndexMap)
    (x : BMat8) (hx : I.mul x x ≠ x)
    (hnr : (is_regular_element I m x).1 = false) :
    (find_idem I fuel m x).1 = some (BMat8.ofInt UNDEFINED)
    ∧ BMat8.mul (BMat8.ofInt UNDEFINED) (BMat8.ofInt UNDEFINED) = BMat8.ofInt UNDEFINED := by
  constructor
  · simp only [find_idem, find_idem_with]
    rw [if_neg hx, if_pos hnr]
  · decide

/-- C10 witness: the nilpotent 2 x 2 matrix with single entry (0, 1) is
neither idempotent nor regular in its instance, and `find_idem` hands
back the idempotent all-ones sentinel. -/
theorem C10_find_idem_sentinel_witness :
    (find_idem nilInst 0 [] bmatNil).1 = some (BMat8.ofInt UNDEFINED)
    ∧ BMat8.mul (BMat8.ofInt UNDEFINED) (BMat8.ofInt UNDEFINED) = BMat8.ofInt UNDEFINED :=
  C10_find_idem_sentinel nilInst 0 [] bmatNil (by decide) (by decide)

end libsemigroups
